import Mathlib

/-!
# Verification of the AArch64 JIT element-wise kernel generator

Shallow embedding of `src/cpu/aarch64/jit_uni_eltwise.cpp`:
the kernel generator's control flow (`jit_uni_kernel_t::generate`), the
per-iteration memory semantics of the F32 / BF16 / F16 loop bodies, the
primitive-descriptor `init()` predicates, and the execution drivers'
partitioning (`jit_uni_eltwise_fwd_t::execute` / `jit_uni_eltwise_bwd_t::execute`).
-/

set_option maxRecDepth 10000

namespace JitUniEltwise

/-! ## Element types and kernel geometry -/

/-- Tensor element type: one of F32, BF16, F16 (the instantiated `d_type`s). -/

inductive DType
  | f32
  | bf16
  | f16
deriving DecidableEq, Repr

/-- `types::data_type_size`: byte size of an element. -/

def DType.size : DType → Nat
  | .f32 => 4
  | .bf16 => 2
  | .f16 => 2

/-- `is_bf16() || is_f16()`: the half-width (16-bit storage) types. -/

def DType.isHalf : DType → Bool
  | .f32 => false
  | .bf16 => true
  | .f16 => true

/-- Kernel geometry: the vector byte length (`vlen()`: 16 for NEON-128,
else the runtime SVE length) together with the element type. -/

structure Geom where
  vlen : Nat
  dt : DType
deriving DecidableEq, Repr

/-- `simd_w() = vlen() / dtype_size()`: elements per vector. -/

def Geom.simd_w (g : Geom) : Nat := g.vlen / g.dt.size

/-- Number of 32-bit (`.s`) lanes of a vector / predicate: `vlen / 4`. -/

def Geom.wl (g : Geom) : Nat := g.vlen / 4

/-- Number of 16-bit (`.h`) lanes of a vector / predicate: `vlen / 2`. -/

def Geom.hl (g : Geom) : Nat := g.vlen / 2

/-- Hardware constraint on the vector length: NEON-128 has `vlen = 16` and
SVE lengths are non-zero multiples of 16 bytes. -/

def Geom.ok (g : Geom) : Prop := g.vlen % 16 = 0 ∧ g.vlen ≠ 0

instance (g : Geom) : Decidable g.ok := by
  unfold Geom.ok; infer_instance

/-! ## Control flow of the generated kernel

`jit_uni_kernel_t::generate` emits (lines 98–197):

```
ptrue pg_s.s ; ptrue pg_h.h
cmp  work_amount, simd_w ; b.LT tail_predication
vectorized_loop_start:
  <loop body, predicated by pg_s / pg_h>
  add src, vlen ; add dst, vlen ; (bwd: add diff_dst, vlen)
  sub work_amount, simd_w
  cmp work_amount, simd_w ; b.GE vectorized_loop_start
tail_predication:
  cmp work_amount, 0 ; b.LE vectorized_loop_end
  whilelt pg_s.s, 0, work_amount
  (half types: whilelt pg_h.h, 0, work_amount)
  b vectorized_loop_start
vectorized_loop_end:
```

We model `reg_work_amount` as an `Int` (the `cmp`/`b.LT`/`b.GE`/`b.LE`
conditions are signed; for `work_amount < 2^63` the signed view of the
64-bit register is exactly this integer).  Predicate registers are modelled
by the count of active leading lanes (`ptrue` activates all lanes; `whilelt
p, 0, wa` activates lanes `0 .. min wa lanes - 1`).  Pointer registers are
modelled as byte offsets from their initial values.
-/

/-- Program counter of the kernel's control-flow skeleton. -/

inductive KPc
  | entry
  | loop
  | tail
  | fin
deriving DecidableEq, Repr

/-- One execution of the loop body: the byte offsets of the three pointer
registers and the active-lane counts of `pg_s` / `pg_h` at that moment. -/

structure KEvent where
  srcOff : Nat
  dstOff : Nat
  diffOff : Nat
  pgS : Nat
  pgH : Nat
deriving DecidableEq, Repr

/-- Machine state of the control-flow skeleton.  `rev` collects the body
executions most-recent-first. -/

structure KSt where
  pc : KPc
  wa : Int
  srcOff : Nat
  dstOff : Nat
  diffOff : Nat
  pgS : Nat
  pgH : Nat
  rev : List KEvent
deriving DecidableEq, Repr

/-- One step of the control-flow skeleton of `generate()`. -/

def kstep (g : Geom) (is_fwd : Bool) (st : KSt) : KSt :=
  match st.pc with
  | .entry =>
      -- ptrue(pg_s.s); ptrue(pg_h.h); cmp(reg_work_amount, simd_w()); b(LT, tail)
      let st := { st with pgS := g.wl, pgH := g.hl }
      if st.wa < (g.simd_w : Int) then { st with pc := .tail }
      else { st with pc := .loop }
  | .loop =>
      -- body; add_imm ptrs by vlen(); sub_imm work_amount by simd_w();
      -- cmp(reg_work_amount, simd_w()); b(GE, loop) else fall through to tail
      let st := { st with
        rev := ⟨st.srcOff, st.dstOff, st.diffOff, st.pgS, st.pgH⟩ :: st.rev
        srcOff := st.srcOff + g.vlen
        dstOff := st.dstOff + g.vlen
        diffOff := if is_fwd then st.diffOff else st.diffOff + g.vlen
        wa := st.wa - (g.simd_w : Int) }
      if (g.simd_w : Int) ≤ st.wa then { st with pc := .loop }
      else { st with pc := .tail }
  | .tail =>
      -- cmp(reg_work_amount, 0); b(LE, end);
      -- whilelt(pg_s.s, 0, work_amount); half: whilelt(pg_h.h, 0, work_amount);
      -- b(vectorized_loop_start)
      if st.wa ≤ 0 then { st with pc := .fin }
      else
        { st with
          pgS := min st.wa.toNat g.wl
          pgH := if g.dt.isHalf then min st.wa.toNat g.hl else st.pgH
          pc := .loop }
  | .fin => st

/-- Run the skeleton for at most `fuel` steps; `none` when the final label
was not reached (used to express termination). -/

def krun (g : Geom) (is_fwd : Bool) : Nat → KSt → Option KSt
  | 0, st => if st.pc = .fin then some st else none
  | n + 1, st =>
      if st.pc = .fin then some st else krun g is_fwd n (kstep g is_fwd st)

/-- Initial state: pointers at the given byte offsets, `work_amount = wa`. -/

def kinit (srcOff dstOff diffOff wa : Nat) : KSt :=
  ⟨.entry, (wa : Int), srcOff, dstOff, diffOff, 0, 0, []⟩

/-- The sequence of body executions of one kernel invocation (oldest first),
or `none` if the kernel does not reach the epilogue within the fuel. -/

def kernelEvents (g : Geom) (is_fwd : Bool) (srcOff dstOff diffOff wa : Nat) :
    Option (List KEvent) :=
  (krun g is_fwd (wa / g.simd_w + 8) (kinit srcOff dstOff diffOff wa)).map
    (fun st => st.rev.reverse)

/-! ### Closed form of the event sequence -/

/-- The `j`-th bulk iteration: pointers advanced by `j·vlen`, both
predicates all-true. -/

def bulkEvent (g : Geom) (is_fwd : Bool) (srcOff dstOff diffOff j : Nat) : KEvent :=
  ⟨srcOff + j * g.vlen, dstOff + j * g.vlen,
    if is_fwd then diffOff else diffOff + j * g.vlen, g.wl, g.hl⟩

/-- The single tail iteration after `k` bulk iterations with `r` elements
remaining: `pg_s` narrowed to `min r wl` lanes, `pg_h` narrowed to `min r
hl` lanes for half-width types and untouched (all-true) for F32. -/

def tailEvent (g : Geom) (is_fwd : Bool) (srcOff dstOff diffOff k r : Nat) : KEvent :=
  ⟨srcOff + k * g.vlen, dstOff + k * g.vlen,
    if is_fwd then diffOff else diffOff + k * g.vlen,
    min r g.wl, if g.dt.isHalf then min r g.hl else g.hl⟩

/-- Closed form: `wa / simd_w` bulk iterations with all-true predicates,
then — exactly when `wa % simd_w ≠ 0` — one tail iteration with narrowed
predicates. -/

def closedEvents (g : Geom) (is_fwd : Bool) (srcOff dstOff diffOff wa : Nat) :
    List KEvent :=
  (List.range (wa / g.simd_w)).map (bulkEvent g is_fwd srcOff dstOff diffOff) ++
    (if wa % g.simd_w = 0 then []
     else [tailEvent g is_fwd srcOff dstOff diffOff (wa / g.simd_w) (wa % g.simd_w)])

/-- Body event recorded on the `j`-th loop iteration after a state with
pointer offsets `so`/`dsto`/`dfo` and predicates `ps`/`ph` (predicates are
unchanged inside the loop; `diff_dst` only advances on the backward path). -/

def evAt (g : Geom) (f : Bool) (so dsto dfo ps ph j : Nat) : KEvent :=
  ⟨so + j * g.vlen, dsto + j * g.vlen,
    if f then dfo else dfo + j * g.vlen, ps, ph⟩

/-! ## Memory semantics of the F32 loop body

Lines 158–167: predicated `ld1w` from `src`, `compute_vector` in place, and
on the backward path a predicated `ld1w` of `diff_dst` followed by the
chain-rule `fmul`, then predicated `st1w` to `dst`.  Lane values are an
abstract type `V`; the injector is an abstract lane-wise function. -/

/-- Abstract F32 configuration: the zeroing value of `/T_z` loads, the
injector's lane-wise action, the lane-wise `fmul`, and the direction. -/

structure F32Cfg (V : Type) where
  zero : V
  inj : V → V
  mul : V → V → V
  is_fwd : Bool

/-- `ld1w(v.s, pg/T_z, ptr(base))`: active lane `l` reads element
`eb + l`; inactive lanes are zeroed. -/

def ld1w {V : Type} (z : V) (mem : Nat → V) (eb a l : Nat) : V :=
  if l < a then mem (eb + l) else z

/-- `st1w(v.s, pg, ptr(base))`: active lanes overwrite elements
`eb .. eb+a-1`; all other memory is untouched. -/

def st1w {V : Type} (v : Nat → V) (mem : Nat → V) (eb a : Nat) : Nat → V :=
  fun i => if eb ≤ i ∧ i < eb + a then v (i - eb) else mem i

/-- One execution of the F32 loop body at the pointer offsets and `pg_s`
lane count recorded in `ev` (element index = byte offset / 4). -/

def f32iter {V : Type} (K : F32Cfg V) (src diff : Nat → V) (dst : Nat → V)
    (ev : KEvent) : Nat → V :=
  let a := ev.pgS
  let v0 := fun l => ld1w K.zero src (ev.srcOff / 4) a l
  let v1 := fun l => K.inj (v0 l)
  let v2 := if K.is_fwd then v1
            else fun l => K.mul (v1 l) (ld1w K.zero diff (ev.diffOff / 4) a l)
  st1w v2 dst (ev.dstOff / 4) a

/-- The destination memory after all body executions of one invocation. -/

def runF32 {V : Type} (K : F32Cfg V) (src diff : Nat → V) (evs : List KEvent)
    (dst0 : Nat → V) : Nat → V :=
  evs.foldl (fun d ev => f32iter K src diff d ev) dst0

/-- The per-element result the F32 body computes. -/

def f32out {V : Type} (K : F32Cfg V) (src diff : Nat → V) (i : Nat) : V :=
  if K.is_fwd then K.inj (src i) else K.mul (K.inj (src i)) (diff i)

/-- The elements the store of one body execution overwrites. -/

def coversF32 (i : Nat) (ev : KEvent) : Prop :=
  ev.dstOff / 4 ≤ i ∧ i < ev.dstOff / 4 + ev.pgS

/-- Event list of one invocation in total form (defaults to `[]`; by
`kernelEvents_eq` it equals the closed form whenever `simd_w ≥ 1`). -/

def kernelEventsD (g : Geom) (is_fwd : Bool) (so dsto dfo wa : Nat) : List KEvent :=
  (kernelEvents g is_fwd so dsto dfo wa).getD []

/-- Final `dst` memory of one F32 kernel invocation whose `src`, `dst` and
`diff_dst` pointers are offset by `s` elements, with `work_amount = wa`. -/

def kernelOutF32 {V : Type} (K : F32Cfg V) (g : Geom) (src diff : Nat → V)
    (s wa : Nat) (dst : Nat → V) : Nat → V :=
  runF32 K src diff (kernelEventsD g K.is_fwd (4 * s) (4 * s) (4 * s) wa) dst

/-! ## Bit-level semantics of the BF16 / F16 loop bodies

Vector registers are viewed at `.s` granularity as functions `Nat → Nat`
(lane `j` holds a value `< 2^32`); half lane `2j` is the low 16 bits of
word lane `j` and half lane `2j+1` its high 16 bits (little endian).
Predicate registers are represented by their active-lane counts; a
predicate register set at `.h` granularity and read at `.s` granularity
activates word element `j` iff its half-lane bit `2j` is set.  The
injector's lane-wise action `injf` and the F32↔storage conversions are
abstract functions on bit patterns. -/

/-- A 32-bit container from its low and high 16-bit halves. -/

def mkW (lo hi : Nat) : Nat := lo + hi * 65536

/-- Half lane `l` of a register viewed at `.s` granularity. -/

def getHalf (r : Nat → Nat) (l : Nat) : Nat :=
  if l % 2 = 0 then r (l / 2) % 65536 else r (l / 2) / 65536 % 65536

/-- `lsl(z.s, z.s, 16)` on one lane. -/

def lsl16 (x : Nat) : Nat := x * 65536 % 4294967296

/-- `and_(z.s, 0xFFFF0000)` on one lane value `< 2^32`. -/

def andHi16 (x : Nat) : Nat := x / 65536 % 65536 * 65536

/-- `lsr(z.s, z.s, 16)` on one lane value `< 2^32`. -/

def lsr16 (x : Nat) : Nat := x / 65536 % 4294967296

/-- `ld1h(z.h, pg_h/T_z, ptr)`: active half lanes (`l < a`) read halfword
element `eb + l`; inactive half lanes are zeroed. -/

def ld1hReg (mem : Nat → Nat) (eb a : Nat) : Nat → Nat :=
  fun j => mkW (if 2 * j < a then mem (eb + 2 * j) % 65536 else 0)
               (if 2 * j + 1 < a then mem (eb + 2 * j + 1) % 65536 else 0)

/-- `mov(zd.s, pg_s, zn.s)` (merging). -/

def movS (a : Nat) (srcR dstR : Nat → Nat) : Nat → Nat :=
  fun j => if j < a then srcR j else dstR j

/-- `bfcvt(zd.h, pg, zn.s)`: each active single element (predicate read at
`.s` granularity, i.e. half-lane bit `2j`) converts to BF16, zero-extended
into the 32-bit container; inactive elements merge. -/

def bfcvtM (cvt : Nat → Nat) (a : Nat) (srcR dstR : Nat → Nat) : Nat → Nat :=
  fun j => if 2 * j < a then cvt (srcR j) % 65536 else dstR j

/-- `bfcvtnt(zd.h, pg, zn.s)`: converts active singles into the odd (top)
halves of the destination containers, leaving the even (bottom) halves
unchanged; inactive elements merge. -/

def bfcvtntM (cvt : Nat → Nat) (a : Nat) (srcR dstR : Nat → Nat) : Nat → Nat :=
  fun j => if 2 * j < a then dstR j % 65536 + cvt (srcR j) % 65536 * 65536
           else dstR j

/-- `fcvt(zd.s, pg, zn.h)` (widening): each active single element converts
the low half of its source container; inactive elements merge. -/

def fcvtUpM (cvtU : Nat → Nat) (a : Nat) (srcR dstR : Nat → Nat) : Nat → Nat :=
  fun j => if 2 * j < a then cvtU (srcR j % 65536) % 4294967296 else dstR j

/-- `fcvt(zd.h, pg_s, zn.s)` (narrowing): converts active singles
(`j < a`), zero-extending the 16-bit result into the container; inactive
elements merge. -/

def fcvtDnM (cvtD : Nat → Nat) (a : Nat) (srcR dstR : Nat → Nat) : Nat → Nat :=
  fun j => if j < a then cvtD (srcR j) % 65536 else dstR j

/-- `orr(zd.h, pg_h, zn.h)` (predicated, `.h` granularity) realized on the
32-bit containers (lane values `< 2^32`). -/

def orrH (a : Nat) (srcR dstR : Nat → Nat) : Nat → Nat :=
  fun j =>
    let lo := if 2 * j < a then Nat.lor (dstR j % 65536) (srcR j % 65536)
              else dstR j % 65536
    let hi := if 2 * j + 1 < a
              then Nat.lor (dstR j / 65536 % 65536) (srcR j / 65536 % 65536)
              else dstR j / 65536 % 65536
    mkW lo hi

/-- `st1h(z.h, pg_h, ptr)`: active half lanes overwrite halfword elements
`eb .. eb+a-1`; everything else is untouched. -/

def st1h (v : Nat → Nat) (mem : Nat → Nat) (eb a : Nat) : Nat → Nat :=
  fun i => if eb ≤ i ∧ i < eb + a then getHalf v (i - eb) else mem i

/-- The registers live across iterations (`mov` is merging) plus the
destination memory. -/

structure HalfSt where
  vmm : Nat → Nat
  tmp0 : Nat → Nat
  dst : Nat → Nat

/-- One execution of the BF16 loop body (lines 123–136): predicated `ld1h`,
even lanes shifted left 16 into F32 position, odd lanes masked with
`0xFFFF0000`, one `compute_vector_range` call on both registers, `bfcvt` /
`bfcvtnt` down-conversion interleaving even/odd results, predicated store. -/

def bf16iter (injf cvt : Nat → Nat) (src : Nat → Nat) (st : HalfSt)
    (ebs ebd aS aH : Nat) : HalfSt :=
  let v1 := ld1hReg src ebs aH
  let t1 := movS aS v1 st.tmp0
  let v2 := fun j => lsl16 (v1 j)
  let t2 := fun j => andHi16 (t1 j)
  let v3 := fun j => injf (v2 j)
  let t3 := fun j => injf (t2 j)
  let v4 := bfcvtM cvt aH v3 v3
  let v5 := bfcvtntM cvt aH t3 v4
  ⟨v5, t3, st1h v5 st.dst ebd aH⟩

/-- One execution of the F16 loop body (lines 138–157): predicated `ld1h`,
even lanes widened with `fcvt`, odd lanes shifted right 16 then widened,
one `compute_vector_range` call on both registers, `fcvt` narrowing of each
register, odd results shifted left 16 and merged by a predicated `orr`,
predicated store. -/

def f16iter (injf cvtU cvtD : Nat → Nat) (src : Nat → Nat) (st : HalfSt)
    (ebs ebd aS aH : Nat) : HalfSt :=
  let v1 := ld1hReg src ebs aH
  let t1 := movS aS v1 st.tmp0
  let v2 := fcvtUpM cvtU aH v1 v1
  let t2 := fun j => lsr16 (t1 j)
  let t3 := fcvtUpM cvtU aH t2 t2
  let v3 := fun j => injf (v2 j)
  let t4 := fun j => injf (t3 j)
  let v4 := fcvtDnM cvtD aS v3 v3
  let t5 := fcvtDnM cvtD aS t4 t4
  let t6 := fun j => lsl16 (t5 j)
  let v5 := orrH aH t6 v4
  ⟨v5, t6, st1h v5 st.dst ebd aH⟩

/-- All body executions of a BF16 invocation (element index = byte
offset / 2). -/

def runBF16 (injf cvt : Nat → Nat) (src : Nat → Nat) (evs : List KEvent)
    (st0 : HalfSt) : HalfSt :=
  evs.foldl (fun st ev =>
    bf16iter injf cvt src st (ev.srcOff / 2) (ev.dstOff / 2) ev.pgS ev.pgH) st0

/-- All body executions of an F16 invocation. -/

def runF16 (injf cvtU cvtD : Nat → Nat) (src : Nat → Nat) (evs : List KEvent)
    (st0 : HalfSt) : HalfSt :=
  evs.foldl (fun st ev =>
    f16iter injf cvtU cvtD src st (ev.srcOff / 2) (ev.dstOff / 2) ev.pgS ev.pgH) st0

/-- The halfword elements the store of one half-width body execution
overwrites. -/

def coversH (i : Nat) (ev : KEvent) : Prop :=
  ev.dstOff / 2 ≤ i ∧ i < ev.dstOff / 2 + ev.pgH

/-! ## Instruction-level transcription of the loop body -/

/-- The instruction shapes `generate()` can emit inside the loop body. -/

inductive AInstr
  | ld1h_src
  | mov_tmp
  | lsl_vmm (sh : Nat)
  | and_tmp (mask : Nat)
  | fcvt_up_vmm
  | lsr_tmp (sh : Nat)
  | fcvt_up_tmp
  | injRange
  | bfcvt_vmm
  | bfcvtnt_vmm
  | fcvt_dn_vmm
  | fcvt_dn_tmp
  | lsl_tmp (sh : Nat)
  | orr_vmm
  | st1w_dst
  | ld1w_src
  | injVec
  | ld1w_diff
  | fmul_diff
  | st1h_dst
deriving DecidableEq, Repr

/-- The loop-body instruction sequence `generate()` emits (lines 123–167)
as a function of direction and element type.  The direction is tested only
inside the F32 branch (`if (!is_fwd)`). -/

def bodyInstrs (is_fwd : Bool) (dt : DType) : List AInstr :=
  match dt with
  | .bf16 => [.ld1h_src, .mov_tmp, .lsl_vmm 16, .and_tmp 0xFFFF0000,
      .injRange, .bfcvt_vmm, .bfcvtnt_vmm, .st1h_dst]
  | .f16 => [.ld1h_src, .mov_tmp, .fcvt_up_vmm, .lsr_tmp 16, .fcvt_up_tmp,
      .injRange, .fcvt_dn_vmm, .fcvt_dn_tmp, .lsl_tmp 16, .orr_vmm, .st1h_dst]
  | .f32 => [.ld1w_src, .injVec]
      ++ (if is_fwd then [] else [.ld1w_diff, .fmul_diff])
      ++ [.st1w_dst]

/-- Propagation direction of a primitive. -/

inductive Dir
  | fwd
  | bwd
deriving DecidableEq, Repr

/-- The explicit template instantiations at lines 373–376. -/

def instantiatedVariants : List (Dir × DType) :=
  [(.fwd, .f32), (.fwd, .bf16), (.fwd, .f16), (.bwd, .f32)]

/-! ## Primitive-descriptor init -/

/-- Status a primitive descriptor's `init()` returns. -/

inductive Status
  | success
  | unimplemented
deriving DecidableEq, Repr

/-- Memory-layout classification.  `is_dense(true)` (dense allowing padded
dimensions) holds for the first two; `is_dense()` — the default,
`with_padding = false`, strictly dense — only for the first. -/

inductive Layout
  | denseStrict
  | densePadded
  | nonDense
deriving DecidableEq, Repr

/-- `memory_desc_wrapper::is_dense(with_padding)`. -/

def Layout.is_dense : Layout → Bool → Bool
  | .denseStrict, _ => true
  | .densePadded, wp => wp
  | .nonDense, _ => false

/-- The truth values `jit_uni_eltwise_fwd_t::pd_t::init` (lines 238–254)
reads from its inputs. -/

structure FwdPd where
  mayiuse : Bool
  is_fwd : Bool
  src_type_is_d : Bool
  dst_type_is_d : Bool
  has_zero_dim : Bool
  layout : Layout
  alg_supported : Bool
  zero_preserved : Bool
  attr_default : Bool
  formats_ok : Bool
  src_eq_dst : Bool
deriving DecidableEq, Repr

/-- `jit_uni_eltwise_fwd_t::pd_t::init`: the conjunction of checks at lines
244–252, including `src_d.is_dense(true)` and
`IMPLICATION(!src_d.is_dense(), is_zero_preserved())`. -/

def fwd_pd_init (p : FwdPd) : Status :=
  if p.mayiuse && p.is_fwd
      && (p.src_type_is_d && p.dst_type_is_d)
      && !p.has_zero_dim && p.layout.is_dense true
      && p.alg_supported
      && (p.layout.is_dense false || p.zero_preserved)
      && p.attr_default && p.formats_ok
      && p.src_eq_dst
  then Status.success else Status.unimplemented

/-- The truth values `jit_uni_eltwise_bwd_t::pd_t::init` (lines 301–320)
reads from its inputs. -/

structure BwdPd where
  mayiuse : Bool
  is_fwd : Bool
  data_type_is_d : Bool
  diff_src_type_is_d : Bool
  diff_dst_type_is_d : Bool
  has_zero_dim : Bool
  formats_ok : Bool
  layout : Layout
  alg_supported : Bool
  zero_preserved : Bool
  data_eq_diff_dst : Bool
  diff_src_eq_diff_dst : Bool
  attr_default : Bool
deriving DecidableEq, Repr

/-- `jit_uni_eltwise_bwd_t::pd_t::init`: the conjunction of checks at lines
307–318. -/

def bwd_pd_init (p : BwdPd) : Status :=
  if p.mayiuse && !p.is_fwd
      && (p.data_type_is_d && p.diff_src_type_is_d && p.diff_dst_type_is_d)
      && !p.has_zero_dim && p.formats_ok
      && p.layout.is_dense true
      && p.alg_supported
      && (p.layout.is_dense false || p.zero_preserved)
      && p.data_eq_diff_dst && p.diff_src_eq_diff_dst
      && p.attr_default
  then Status.success else Status.unimplemented

/-- The §4.1 conditions exactly as the spec words them for the forward
direction (condition 5: "the memory layout is dense (contiguous in natural
order) *or* the algorithm preserves zeros on padding").  A second
definition following the spec, for comparison with `fwd_pd_init`. -/

def specFwdConds (p : FwdPd) : Prop :=
  p.mayiuse = true ∧ p.is_fwd = true
    ∧ p.src_type_is_d = true ∧ p.dst_type_is_d = true
    ∧ p.has_zero_dim = false
    ∧ (p.layout = Layout.denseStrict ∨ p.zero_preserved = true)
    ∧ p.alg_supported = true
    ∧ p.attr_default = true
    ∧ p.src_eq_dst = true

/-- The §4.1 conditions as the spec words them for the backward
direction. -/

def specBwdConds (p : BwdPd) : Prop :=
  p.mayiuse = true ∧ p.is_fwd = false
    ∧ p.data_type_is_d = true ∧ p.diff_src_type_is_d = true
    ∧ p.diff_dst_type_is_d = true
    ∧ p.has_zero_dim = false
    ∧ (p.layout = Layout.denseStrict ∨ p.zero_preserved = true)
    ∧ p.alg_supported = true
    ∧ p.attr_default = true
    ∧ p.data_eq_diff_dst = true ∧ p.diff_src_eq_diff_dst = true

instance (p : FwdPd) : Decidable (specFwdConds p) := by
  unfold specFwdConds; infer_instance

instance (p : BwdPd) : Decidable (specBwdConds p) := by
  unfold specBwdConds; infer_instance

/-! ## Execution driver -/

/-- Modelled from the spec: `utils::div_up` (outside this file), the
ceiling division the drivers use for the grain count. -/

def div_up (a b : Nat) : Nat := (a + b - 1) / b

/-- Modelled from the spec: the framework partitioner `balance211` (outside
this file) dispatches `n` units across `team` workers as contiguous
balanced chunks in thread order — the first `t1` threads receive
`n1 = ⌈n / team⌉` units each and the remaining threads `n1 - 1`. -/

def balance211 (n team tid : Nat) : Nat × Nat :=
  if team ≤ 1 ∨ n = 0 then (0, n)
  else
    let n1 := div_up n team
    let n2 := n1 - 1
    let t1 := n - n2 * team
    let n_start := if tid ≤ t1 then tid * n1 else t1 * n1 + (tid - t1) * n2
    let n_my := if tid < t1 then n1 else n2
    (n_start, n_start + n_my)

/-- The clamped element range of thread `ithr` in
`jit_uni_eltwise_fwd_t::execute` / `jit_uni_eltwise_bwd_t::execute` (lines
282–288 / 352–358): `balance211` over `div_up(nelems, simd_w)` grains of
`simd_w = 64 / data_type_size()` elements, both bounds scaled by the grain
and clamped to `nelems`. -/

def chunkBounds (nelems grain nthr ithr : Nat) : Nat × Nat :=
  let se := balance211 (div_up nelems grain) nthr ithr
  (min nelems (se.1 * grain), min nelems (se.2 * grain))

/-- The `jit_args_t` record a driver thread fills, as element offsets into
the tensors. -/

structure DriverArgs where
  srcOff : Nat
  dstOff : Nat
  diffOff : Option Nat
  work_amount : Nat
deriving DecidableEq, Repr

/-- The record thread `ithr` of the forward driver builds, or `none` when
the partition is empty (`if (start == end) return`): `src`/`dst` advanced
by `start` elements, `diff_dst = nullptr`, `work_amount = end - start`. -/

def mkArgsFwd (nelems grain nthr ithr : Nat) : Option DriverArgs :=
  let se := chunkBounds nelems grain nthr ithr
  if se.1 = se.2 then none else some ⟨se.1, se.1, none, se.2 - se.1⟩

/-- The record thread `ithr` of the backward driver builds: the value
tensor, `diff_src` and `diff_dst` all advanced by `start` elements. -/

def mkArgsBwd (nelems grain nthr ithr : Nat) : Option DriverArgs :=
  let se := chunkBounds nelems grain nthr ithr
  if se.1 = se.2 then none else some ⟨se.1, se.1, some se.1, se.2 - se.1⟩

/-! ### Sequential composition of kernel invocations -/

/-- Sequential composition of F32 kernel invocations over
`(start, work_amount)` pieces. -/

def runPiecesF32 {V : Type} (K : F32Cfg V) (g : Geom) (src diff : Nat → V)
    (ps : List (Nat × Nat)) (dst0 : Nat → V) : Nat → V :=
  ps.foldl (fun d p => kernelOutF32 K g src diff p.1 p.2 d) dst0

/-- Contiguous pieces of the given lengths starting at element `s`. -/

def pieces (s : Nat) : List Nat → List (Nat × Nat)
  | [] => []
  | l :: ls => (s, l) :: pieces (s + l) ls

/-- The forward driver `execute` (lines 282–296) as the sequential
composition of its per-thread invocations: thread `t` runs the kernel on
its clamped partition unless the partition is empty.  The partitions are
pairwise disjoint, so this function is what the parallel dispatch
computes. -/

def runDriverF32 {V : Type} (K : F32Cfg V) (g : Geom)
    (nelems grain nthr : Nat) (src diff : Nat → V) (dst0 : Nat → V) :
    Nat → V :=
  (List.range nthr).foldl (fun d t =>
    match mkArgsFwd nelems grain nthr t with
    | none => d
    | some a => kernelOutF32 K g src diff a.srcOff a.work_amount d) dst0

/-! ### Half-width kernel invocations -/

/-- Final state of one BF16 kernel invocation starting at halfword element
`s` (half-width types are only instantiated forward). -/

def kernelOutBF16 (injf cvt : Nat → Nat) (g : Geom) (src : Nat → Nat)
    (s wa : Nat) (st0 : HalfSt) : HalfSt :=
  runBF16 injf cvt src (kernelEventsD g true (2 * s) (2 * s) (2 * s) wa) st0

/-- Final state of one F16 kernel invocation starting at halfword element
`s`. -/

def kernelOutF16 (injf cvtU cvtD : Nat → Nat) (g : Geom) (src : Nat → Nat)
    (s wa : Nat) (st0 : HalfSt) : HalfSt :=
  runF16 injf cvtU cvtD src (kernelEventsD g true (2 * s) (2 * s) (2 * s) wa) st0

/-- The per-element result of the BF16 body: both the even path (`lsl 16`)
and the odd path (`0xFFFF0000` mask) place the BF16 payload of the source
halfword in the high half of an F32 word, so every lane — whatever its
even/odd position inside a vector — stores the same function of its source
element. -/

def bf16out (injf cvt : Nat → Nat) (src : Nat → Nat) (i : Nat) : Nat :=
  cvt (injf (src i % 65536 * 65536)) % 65536

/-- The per-element result of the F16 body: the even path widens the low
half directly, the odd path shifts right 16 then widens — both feed the
source halfword to the same `cvtU`/injector/`cvtD` pipeline. -/

def f16out (injf cvtU cvtD : Nat → Nat) (src : Nat → Nat) (i : Nat) : Nat :=
  cvtD (injf (cvtU (src i % 65536) % 4294967296)) % 65536

/-- Sequential composition of BF16 kernel invocations over
`(start, work_amount)` pieces. -/

def runPiecesBF16 (injf cvt : Nat → Nat) (g : Geom) (src : Nat → Nat)
    (ps : List (Nat × Nat)) (st0 : HalfSt) : HalfSt :=
  ps.foldl (fun st p => kernelOutBF16 injf cvt g src p.1 p.2 st) st0

/-- Sequential composition of F16 kernel invocations over
`(start, work_amount)` pieces. -/

def runPiecesF16 (injf cvtU cvtD : Nat → Nat) (g : Geom) (src : Nat → Nat)
    (ps : List (Nat × Nat)) (st0 : HalfSt) : HalfSt :=
  ps.foldl (fun st p => kernelOutF16 injf cvtU cvtD g src p.1 p.2 st) st0

/-- The forward driver `execute` for the BF16 kernel as the sequential
composition of its per-thread invocations (partitions are disjoint, so the
parallel dispatch computes this function). -/

def runDriverBF16 (injf cvt : Nat → Nat) (g : Geom)
    (nelems grain nthr : Nat) (src : Nat → Nat) (st0 : HalfSt) : HalfSt :=
  (List.range nthr).foldl (fun st t =>
    match mkArgsFwd nelems grain nthr t with
    | none => st
    | some a => kernelOutBF16 injf cvt g src a.srcOff a.work_amount st) st0

/-- The forward driver `execute` for the F16 kernel as the sequential
composition of its per-thread invocations. -/

def runDriverF16 (injf cvtU cvtD : Nat → Nat) (g : Geom)
    (nelems grain nthr : Nat) (src : Nat → Nat) (st0 : HalfSt) : HalfSt :=
  (List.range nthr).foldl (fun st t =>
    match mkArgsFwd nelems grain nthr t with
    | none => st
    | some a => kernelOutF16 injf cvtU cvtD g src a.srcOff a.work_amount st) st0

/-- The amended §4.1 condition list for the forward direction: condition 5
replaced by what the code enforces — `is_dense(true)` unconditionally, and
`is_dense()` or zero preservation. -/

def amendedFwdConds (p : FwdPd) : Prop :=
  p.mayiuse = true ∧ p.is_fwd = true
    ∧ p.src_type_is_d = true ∧ p.dst_type_is_d = true
    ∧ p.has_zero_dim = false
    ∧ p.layout.is_dense true = true
    ∧ (p.layout.is_dense false = true ∨ p.zero_preserved = true)
    ∧ p.alg_supported = true
    ∧ p.attr_default = true
    ∧ p.src_eq_dst = true

/-- The amended §4.1 condition list for the backward direction. -/

def amendedBwdConds (p : BwdPd) : Prop :=
  p.mayiuse = true ∧ p.is_fwd = false
    ∧ p.data_type_is_d = true ∧ p.diff_src_type_is_d = true
    ∧ p.diff_dst_type_is_d = true
    ∧ p.has_zero_dim = false
    ∧ p.layout.is_dense true = true
    ∧ (p.layout.is_dense false = true ∨ p.zero_preserved = true)
    ∧ p.alg_supported = true
    ∧ p.attr_default = true
    ∧ p.data_eq_diff_dst = true ∧ p.diff_src_eq_diff_dst = true

instance (p : FwdPd) : Decidable (amendedFwdConds p) := by
  unfold amendedFwdConds; infer_instance

instance (p : BwdPd) : Decidable (amendedBwdConds p) := by
  unfold amendedBwdConds; infer_instance

/-- Line 338: the backward driver passes `DST` as the kernel's value tensor
when `use_dst` and `SRC` otherwise. -/

def bwdValueTensor {V : Type} (use_dst : Bool) (srcT dstT : Nat → V) :
    Nat → V :=
  if use_dst then dstT else srcT

/-! # Theorems -/

theorem Geom.size_dvd_vlen {g : Geom} (h : g.ok) : g.dt.size ∣ g.vlen := by
  obtain ⟨h16, -⟩ := h
  have : (16 : Nat) ∣ g.vlen := Nat.dvd_of_mod_eq_zero h16
  cases g.dt <;> simp only [DType.size] <;> exact dvd_trans (by norm_num) this

theorem Geom.simd_w_pos {g : Geom} (h : g.ok) : 1 ≤ g.simd_w := by
  obtain ⟨h16, hne⟩ := h
  have hd : g.dt.size ∣ g.vlen := Geom.size_dvd_vlen ⟨h16, hne⟩
  have hsz : 0 < g.dt.size := by cases g.dt <;> simp [DType.size]
  have : 0 < g.vlen := Nat.pos_of_ne_zero hne
  exact Nat.le_div_iff_mul_le hsz |>.mpr (by
    have := Nat.le_of_dvd ‹0 < g.vlen› hd
    omega)

/-- `simd_w * dtype_size = vlen` (the element width cancels exactly). -/

theorem Geom.simd_w_mul_size {g : Geom} (h : g.ok) :
    g.simd_w * g.dt.size = g.vlen :=
  Nat.div_mul_cancel (Geom.size_dvd_vlen h)

/-- For half-width types `simd_w = hl`; for F32 `simd_w = wl`. -/

theorem Geom.simd_w_eq {g : Geom} :
    g.simd_w = if g.dt.isHalf then g.hl else g.wl := by
  obtain ⟨v, dt⟩ := g
  cases dt <;> simp [Geom.simd_w, Geom.hl, Geom.wl, DType.size, DType.isHalf]

/-! ### Proof of the closed form -/

theorem krun_fin (g : Geom) (f : Bool) :
    ∀ (n : Nat) (st : KSt), st.pc = .fin → krun g f n st = some st := by
  intro n st h
  cases n <;> simp [krun, h]

theorem krun_succ (g : Geom) (f : Bool) (m : Nat) (st : KSt)
    (h : ¬st.pc = .fin) :
    krun g f (m + 1) st = krun g f m (kstep g f st) := by
  simp [krun, h]

theorem evAt_zero (g : Geom) (f : Bool) (so dsto dfo ps ph : Nat) :
    evAt g f so dsto dfo ps ph 0 = ⟨so, dsto, dfo, ps, ph⟩ := by
  cases f <;> simp [evAt]

theorem evAt_succ (g : Geom) (f : Bool) (so dsto dfo ps ph j : Nat) :
    evAt g f (so + g.vlen) (dsto + g.vlen) (if f then dfo else dfo + g.vlen)
      ps ph j = evAt g f so dsto dfo ps ph (j + 1) := by
  simp only [evAt]
  rw [KEvent.mk.injEq]
  refine ⟨by ring, by ring, ?_, rfl, rfl⟩
  cases f <;> simp <;> try ring

theorem reverse_map_range_succ {A : Type} (h : Nat → A) (k : Nat) (a : A)
    (l : List A) (ha : a = h 0) :
    ((List.range (k + 1)).map (fun j => h (j + 1))).reverse ++ a :: l
      = ((List.range (k + 2)).map h).reverse ++ l := by
  subst ha
  rw [List.range_succ_eq_map (k + 1)]
  simp [List.map_map, Function.comp_def, Nat.succ_eq_add_one]

/-- Running the loop from `work_amount = (k+1)·simd_w + r` (with `r <
simd_w`) executes the body `k+1` times with unchanged predicates, advances
each live pointer by `(k+1)·vlen` bytes, and falls through to the tail with
`work_amount = r`. -/

theorem krun_loop (g : Geom) (f : Bool) (hsw : 1 ≤ g.simd_w) :
    ∀ (k r : Nat), r < g.simd_w →
    ∀ (st : KSt), st.pc = .loop → st.wa = (((k + 1) * g.simd_w + r : Nat) : Int) →
    ∀ (n : Nat), krun g f (k + 1 + n) st =
      krun g f n
        { pc := .tail, wa := (r : Int),
          srcOff := st.srcOff + (k + 1) * g.vlen,
          dstOff := st.dstOff + (k + 1) * g.vlen,
          diffOff := if f then st.diffOff else st.diffOff + (k + 1) * g.vlen,
          pgS := st.pgS, pgH := st.pgH,
          rev := ((List.range (k + 1)).map
              (evAt g f st.srcOff st.dstOff st.diffOff st.pgS st.pgH)).reverse
            ++ st.rev } := by
  intro k
  induction k with
  | zero =>
      intro r hr st hpc hwa n
      obtain ⟨pc, wa, so, dsto, dfo, ps, ph, rv⟩ := st
      simp only at hpc hwa
      subst hpc hwa
      have h1 : (0 : Nat) + 1 + n = n + 1 := by omega
      rw [h1, krun_succ g f n _ (by simp)]
      simp only [kstep]
      rw [if_neg (by push_cast; omega)]
      congr 1
      rw [KSt.mk.injEq]
      refine ⟨rfl, by push_cast; ring, by ring, by ring, ?_, rfl, rfl, ?_⟩
      · cases f <;> simp <;> try ring
      · simp only [List.range_succ, List.range_zero, List.nil_append,
          List.map_cons, List.map_nil, List.reverse_cons, List.reverse_nil,
          List.singleton_append, evAt_zero]
  | succ k ih =>
      intro r hr st hpc hwa n
      obtain ⟨pc, wa, so, dsto, dfo, ps, ph, rv⟩ := st
      simp only at hpc hwa
      subst hpc hwa
      have h1 : k + 1 + 1 + n = (k + 1 + n) + 1 := by omega
      have hk : (0 : Int) ≤ (k : Int) * (g.simd_w : Int) := by positivity
      have hr0 : (0 : Int) ≤ (r : Int) := by positivity
      rw [h1, krun_succ g f _ _ (by simp)]
      simp only [kstep]
      rw [if_pos (by push_cast; nlinarith)]
      rw [ih r hr _ rfl (by push_cast; ring) n]
      congr 1
      rw [KSt.mk.injEq]
      refine ⟨rfl, rfl, by ring, by ring, ?_, rfl, rfl, ?_⟩
      · cases f <;> simp <;> try ring
      · have hrw : (List.range (k + 1)).map
            (evAt g f (so + g.vlen) (dsto + g.vlen)
              (if f then dfo else dfo + g.vlen) ps ph)
            = (List.range (k + 1)).map
              (fun j => evAt g f so dsto dfo ps ph (j + 1)) :=
          List.map_congr_left (fun a _ => evAt_succ g f so dsto dfo ps ph a)
        rw [hrw]
        exact reverse_map_range_succ _ k _ rv (evAt_zero g f so dsto dfo ps ph).symm

theorem evAt_eq_bulkEvent (g : Geom) (f : Bool) (so dsto dfo : Nat) :
    evAt g f so dsto dfo g.wl g.hl = bulkEvent g f so dsto dfo := by
  funext j
  rfl

/-- Full closed form of one kernel invocation: the loop terminates for every
`work_amount`, executing `wa / simd_w` bulk iterations with all-true
predicates and then — exactly when `wa % simd_w ≠ 0` — one tail iteration
with the predicates narrowed by `whilelt` to the remaining lanes. -/

theorem kernelEvents_eq (g : Geom) (f : Bool) (hsw : 1 ≤ g.simd_w)
    (so dsto dfo wa : Nat) :
    kernelEvents g f so dsto dfo wa = some (closedEvents g f so dsto dfo wa) := by
  obtain ⟨k, r, hr, hwa⟩ : ∃ k r, r < g.simd_w ∧ wa = g.simd_w * k + r :=
    ⟨wa / g.simd_w, wa % g.simd_w, Nat.mod_lt _ (by omega),
      (Nat.div_add_mod wa g.simd_w).symm⟩
  have hdiv : wa / g.simd_w = k := by
    subst hwa; rw [Nat.mul_add_div (by omega), Nat.div_eq_of_lt hr]; omega
  have hmod : wa % g.simd_w = r := by
    subst hwa; rw [Nat.mul_add_mod, Nat.mod_eq_of_lt hr]
  unfold kernelEvents closedEvents
  rw [hdiv, hmod]
  rw [show k + 8 = k + 7 + 1 by omega]
  rw [krun_succ g f _ _ (by simp [kinit])]
  simp only [kinit, kstep]
  rcases Nat.eq_zero_or_pos k with hk0 | hkpos
  · -- fewer than simd_w elements: straight to the tail
    subst hk0
    have hwalt : wa < g.simd_w := by omega
    rw [if_pos (by exact_mod_cast hwalt)]
    rcases Nat.eq_zero_or_pos r with hr0 | hrpos
    · -- work_amount = 0: jump directly to the epilogue
      subst hr0
      have hwa0 : wa = 0 := by omega
      subst hwa0
      rw [show (0 : Nat) + 7 = 6 + 1 by omega]
      rw [krun_succ g f _ _ (by simp)]
      simp only [kstep]
      rw [if_pos (by norm_num)]
      rw [krun_fin g f _ _ rfl]
      simp
    · -- 0 < work_amount < simd_w: narrow predicates, run the body once
      have hwar : r = wa := by omega
      subst hwar
      rw [show (0 : Nat) + 7 = 6 + 1 by omega]
      rw [krun_succ g f _ _ (by simp)]
      simp only [kstep]
      rw [if_neg (by push_cast; omega)]
      rw [show (6 : Nat) = 5 + 1 by omega]
      rw [krun_succ g f _ _ (by simp)]
      simp only [kstep]
      rw [if_neg (by push_cast; omega)]
      rw [show (5 : Nat) = 4 + 1 by omega]
      rw [krun_succ g f _ _ (by simp)]
      simp only [kstep]
      rw [if_pos (by push_cast; omega)]
      rw [krun_fin g f _ _ rfl]
      rw [if_neg (by omega : ¬ r = 0)]
      simp [tailEvent, Int.toNat_natCast]
  · -- at least one bulk iteration
    have hge : g.simd_w ≤ wa := by
      rw [hwa]
      calc g.simd_w ≤ g.simd_w * k := Nat.le_mul_of_pos_right _ hkpos
        _ ≤ g.simd_w * k + r := Nat.le_add_right _ _
    rw [if_neg (not_lt.mpr (by exact_mod_cast hge))]
    obtain ⟨k', rfl⟩ : ∃ k', k = k' + 1 := ⟨k - 1, by omega⟩
    have hloop := krun_loop g f hsw k' r hr
      ⟨.loop, (wa : Int), so, dsto, dfo, g.wl, g.hl, []⟩ rfl
      (by show ((wa : Nat) : Int) = _; rw [hwa]; push_cast; ring) 7
    simp only at hloop
    rw [hloop]
    rcases Nat.eq_zero_or_pos r with hr0 | hrpos
    · -- exact multiple of simd_w: tail jumps straight to the epilogue
      subst hr0
      rw [show (7 : Nat) = 6 + 1 by omega]
      rw [krun_succ g f _ _ (by simp)]
      simp only [kstep]
      rw [if_pos (by norm_num)]
      rw [krun_fin g f _ _ rfl, evAt_eq_bulkEvent]
      simp
    · -- leftover tail: narrow both predicates once, one more body run
      rw [show (7 : Nat) = 6 + 1 by omega]
      rw [krun_succ g f _ _ (by simp)]
      simp only [kstep]
      rw [if_neg (by push_cast; omega)]
      rw [show (6 : Nat) = 5 + 1 by omega]
      rw [krun_succ g f _ _ (by simp)]
      simp only [kstep]
      rw [if_neg (by push_cast; omega)]
      rw [show (5 : Nat) = 4 + 1 by omega]
      rw [krun_succ g f _ _ (by simp)]
      simp only [kstep]
      rw [if_pos (by push_cast; omega)]
      rw [krun_fin g f _ _ rfl]
      rw [if_neg (by omega : ¬ r = 0), evAt_eq_bulkEvent]
      simp [tailEvent, Int.toNat_natCast]

theorem f32iter_frame {V : Type} (K : F32Cfg V) (src diff dst : Nat → V)
    (ev : KEvent) (i : Nat) (h : ¬coversF32 i ev) :
    f32iter K src diff dst ev i = dst i := by
  simp only [f32iter, st1w, coversF32] at *
  rw [if_neg h]

theorem f32iter_at {V : Type} (K : F32Cfg V) (src diff dst : Nat → V)
    (ev : KEvent) (i : Nat) (hsd : ev.srcOff = ev.dstOff)
    (hdd : K.is_fwd = false → ev.diffOff = ev.dstOff)
    (h : coversF32 i ev) :
    f32iter K src diff dst ev i = f32out K src diff i := by
  obtain ⟨h1, h2⟩ := h
  simp only [coversF32, f32iter, st1w, f32out, hsd] at *
  rw [if_pos ⟨h1, h2⟩]
  have hi : ev.dstOff / 4 + (i - ev.dstOff / 4) = i := by omega
  cases hf : K.is_fwd
  · rw [if_neg (by simp), if_neg (by simp)]
    rw [hdd hf]
    simp only [ld1w]
    rw [if_pos (by omega), if_pos (by omega), hi]
  · rw [if_pos rfl, if_pos rfl]
    simp only [ld1w]
    rw [if_pos (by omega), hi]

theorem runF32_frame {V : Type} (K : F32Cfg V) (src diff : Nat → V)
    (evs : List KEvent) (dst0 : Nat → V) (i : Nat)
    (h : ∀ ev ∈ evs, ¬coversF32 i ev) :
    runF32 K src diff evs dst0 i = dst0 i := by
  induction evs generalizing dst0 with
  | nil => rfl
  | cons ev evs ih =>
      simp only [runF32, List.foldl_cons] at *
      rw [ih _ (fun e he => h e (List.mem_cons.mpr (Or.inr he)))]
      exact f32iter_frame K src diff dst0 ev i (h ev (List.mem_cons_self ev evs))

theorem runF32_covered {V : Type} (K : F32Cfg V) (src diff : Nat → V)
    (evs : List KEvent) (dst0 : Nat → V) (i : Nat)
    (hoff : ∀ ev ∈ evs, ev.srcOff = ev.dstOff ∧
      (K.is_fwd = false → ev.diffOff = ev.dstOff))
    (h : ∃ ev ∈ evs, coversF32 i ev) :
    runF32 K src diff evs dst0 i = f32out K src diff i := by
  induction evs generalizing dst0 with
  | nil => obtain ⟨ev, hmem, -⟩ := h; exact absurd hmem (List.not_mem_nil ev)
  | cons ev evs ih =>
      simp only [runF32, List.foldl_cons] at *
      by_cases htail : ∃ e ∈ evs, coversF32 i e
      · exact ih _ (fun e he => hoff e (List.mem_cons.mpr (Or.inr he))) htail
      · push_neg at htail
        have hev : coversF32 i ev := by
          obtain ⟨e, hmem, hc⟩ := h
          rcases List.mem_cons.mp hmem with rfl | hmem2
          · exact hc
          · exact absurd hc (htail e hmem2)
        have hfr : runF32 K src diff evs (f32iter K src diff dst0 ev) i
            = f32iter K src diff dst0 ev i := runF32_frame _ _ _ _ _ _ htail
        simp only [runF32] at hfr
        rw [hfr]
        exact f32iter_at K src diff dst0 ev i
          (hoff ev (List.mem_cons_self ev evs)).1
          (hoff ev (List.mem_cons_self ev evs)).2 hev

/-! ### Coverage of the closed event sequence -/

theorem covers_arith_shift (m k r s i : Nat) (hm : 1 ≤ m) (hr : r < m) :
    ((∃ j, j < k ∧ (s + j * m ≤ i ∧ i < s + j * m + m)) ∨
      (r ≠ 0 ∧ (s + k * m ≤ i ∧ i < s + k * m + r)))
      ↔ (s ≤ i ∧ i < s + (k * m + r)) := by
  constructor
  · rintro (⟨j, hj, h1, h2⟩ | ⟨h0, h1, h2⟩)
    · have hle : j * m + m ≤ k * m := by
        calc j * m + m = (j + 1) * m := by ring
          _ ≤ k * m := Nat.mul_le_mul_right m hj
      set p := j * m
      set q := k * m
      omega
    · set q := k * m
      omega
  · rintro ⟨hsi, hi⟩
    by_cases hlt : i < s + k * m
    · left
      have h1 : (i - s) / m * m ≤ i - s := Nat.div_mul_le_self _ _
      have h2' : i - s < (i - s) / m * m + m := Nat.lt_div_mul_add (by omega)
      have hjk : (i - s) / m < k := by
        rw [Nat.div_lt_iff_lt_mul (by omega : 0 < m)]
        set q := k * m
        omega
      refine ⟨(i - s) / m, hjk, ?_, ?_⟩
      · set p := (i - s) / m * m
        omega
      · set p := (i - s) / m * m
        omega
    · right
      set q := k * m
      exact ⟨by omega, by omega, by omega⟩

/-- For an F32 invocation whose `src`/`dst` pointers start at element `s`
(byte offset `4·s`), the union of all store intervals is exactly the
element range `[s, s + wa)`. -/

theorem closedEvents_covers_f32 (g : Geom) (f : Bool) (hg : g.ok)
    (hdt : g.dt = DType.f32) (s dfo wa i : Nat) :
    (∃ ev ∈ closedEvents g f (4 * s) (4 * s) dfo wa, coversF32 i ev)
      ↔ (s ≤ i ∧ i < s + wa) := by
  have hsw : 1 ≤ g.simd_w := Geom.simd_w_pos hg
  obtain ⟨m, hm⟩ : (4 : Nat) ∣ g.vlen := by
    have h := Geom.size_dvd_vlen hg; rwa [hdt] at h
  have hmsw : g.simd_w = m := by
    show g.vlen / g.dt.size = m
    rw [hdt, hm]
    show 4 * m / 4 = m
    exact Nat.mul_div_cancel_left m (by norm_num)
  have hwlm : g.wl = m := by
    show g.vlen / 4 = m
    rw [hm]
    exact Nat.mul_div_cancel_left m (by norm_num)
  have hdiv4 : ∀ b j : Nat, (4 * b + j * g.vlen) / 4 = b + j * m := by
    intro b j
    rw [hm, show 4 * b + j * (4 * m) = 4 * (b + j * m) by ring]
    exact Nat.mul_div_cancel_left _ (by norm_num)
  have hm1 : 1 ≤ m := by omega
  rw [closedEvents]
  set k := wa / g.simd_w with hk
  set r := wa % g.simd_w with hr
  have hrlt : r < m := by rw [hr, ← hmsw]; exact Nat.mod_lt _ (by omega)
  have hwa' : m * k + r = wa := by rw [hk, hr, ← hmsw]; exact Nat.div_add_mod _ _
  have harith := covers_arith_shift m k r s i hm1 hrlt
  constructor
  · rintro ⟨ev, hmem, hc⟩
    rcases List.mem_append.mp hmem with hb | ht
    · obtain ⟨j, hjmem, rfl⟩ := List.mem_map.mp hb
      rw [List.mem_range] at hjmem
      simp only [coversF32, bulkEvent] at hc
      rw [hdiv4, hwlm] at hc
      have := harith.mp (Or.inl ⟨j, hjmem, hc⟩)
      rw [show k * m + r = wa by rw [← hwa']; ring] at this
      exact this
    · by_cases hr0 : r = 0
      · rw [if_pos hr0] at ht
        exact absurd ht (List.not_mem_nil ev)
      · rw [if_neg hr0] at ht
        rw [List.mem_singleton] at ht
        subst ht
        simp only [coversF32, tailEvent] at hc
        rw [hdiv4, hwlm, Nat.min_eq_left (le_of_lt hrlt)] at hc
        have := harith.mp (Or.inr ⟨hr0, hc⟩)
        rw [show k * m + r = wa by rw [← hwa']; ring] at this
        exact this
  · intro hi
    have hmid := harith.mpr (by rw [show k * m + r = wa by rw [← hwa']; ring]; exact hi)
    rcases hmid with ⟨j, hj, hcov⟩ | ⟨hr0, hcov⟩
    · refine ⟨bulkEvent g f (4 * s) (4 * s) dfo j,
        List.mem_append.mpr (Or.inl (List.mem_map_of_mem _ (List.mem_range.mpr hj))),
        ?_⟩
      simp only [coversF32, bulkEvent]
      rw [hdiv4, hwlm]
      exact hcov
    · refine ⟨tailEvent g f (4 * s) (4 * s) dfo k r,
        List.mem_append.mpr (Or.inr ?_), ?_⟩
      · rw [if_neg hr0]
        exact List.mem_singleton.mpr rfl
      · simp only [coversF32, tailEvent]
        rw [hdiv4, hwlm, Nat.min_eq_left (le_of_lt hrlt)]
        exact hcov

/-- All events of a closed sequence started with equal `src`/`dst` offsets
keep them equal, and on the backward path `diff_dst` tracks them too. -/

theorem closedEvents_offsets (g : Geom) (f : Bool) (b dfo wa : Nat)
    (hdf : f = false → dfo = b) :
    ∀ ev ∈ closedEvents g f b b dfo wa,
      ev.srcOff = ev.dstOff ∧ (f = false → ev.diffOff = ev.dstOff) := by
  intro ev hmem
  rcases List.mem_append.mp hmem with hb | ht
  · obtain ⟨j, hjmem, rfl⟩ := List.mem_map.mp hb
    refine ⟨rfl, fun hf => ?_⟩
    subst hf
    simp only [bulkEvent]
    rw [if_neg (by simp), hdf rfl]
  · by_cases hr0 : wa % g.simd_w = 0
    · rw [closedEvents] at hmem
      rw [if_pos hr0] at ht
      exact absurd ht (List.not_mem_nil ev)
    · rw [if_neg hr0] at ht
      rw [List.mem_singleton] at ht
      subst ht
      refine ⟨rfl, fun hf => ?_⟩
      subst hf
      simp only [tailEvent]
      rw [if_neg (by simp), hdf rfl]

theorem kernelEventsD_eq (g : Geom) (f : Bool) (hsw : 1 ≤ g.simd_w)
    (so dsto dfo wa : Nat) :
    kernelEventsD g f so dsto dfo wa = closedEvents g f so dsto dfo wa := by
  rw [kernelEventsD, kernelEvents_eq g f hsw]
  rfl

/-- Pointwise characterization of an F32 invocation: elements `[s, s+wa)`
hold the body's per-element result, all other memory is untouched. -/

theorem kernelOutF32_pointwise {V : Type} (K : F32Cfg V) (g : Geom)
    (hg : g.ok) (hdt : g.dt = DType.f32) (src diff dst : Nat → V)
    (s wa i : Nat) :
    kernelOutF32 K g src diff s wa dst i
      = if s ≤ i ∧ i < s + wa then f32out K src diff i else dst i := by
  rw [kernelOutF32, kernelEventsD_eq g K.is_fwd (Geom.simd_w_pos hg)]
  by_cases hcov : s ≤ i ∧ i < s + wa
  · rw [if_pos hcov]
    exact runF32_covered K src diff _ dst i
      (closedEvents_offsets g K.is_fwd (4 * s) (4 * s) wa (fun _ => rfl))
      ((closedEvents_covers_f32 g K.is_fwd hg hdt s (4 * s) wa i).mpr hcov)
  · rw [if_neg hcov]
    refine runF32_frame K src diff _ dst i ?_
    intro ev hmem hc
    exact hcov ((closedEvents_covers_f32 g K.is_fwd hg hdt s (4 * s) wa i).mp
      ⟨ev, hmem, hc⟩)

theorem bf16iter_frame (injf cvt : Nat → Nat) (src : Nat → Nat) (st : HalfSt)
    (ebs ebd aS aH i : Nat) (h : ¬(ebd ≤ i ∧ i < ebd + aH)) :
    (bf16iter injf cvt src st ebs ebd aS aH).dst i = st.dst i := by
  simp only [bf16iter, st1h]
  rw [if_neg h]

theorem f16iter_frame (injf cvtU cvtD : Nat → Nat) (src : Nat → Nat)
    (st : HalfSt) (ebs ebd aS aH i : Nat) (h : ¬(ebd ≤ i ∧ i < ebd + aH)) :
    (f16iter injf cvtU cvtD src st ebs ebd aS aH).dst i = st.dst i := by
  simp only [f16iter, st1h]
  rw [if_neg h]

theorem runBF16_frame (injf cvt : Nat → Nat) (src : Nat → Nat)
    (evs : List KEvent) (st0 : HalfSt) (i : Nat)
    (h : ∀ ev ∈ evs, ¬coversH i ev) :
    (runBF16 injf cvt src evs st0).dst i = st0.dst i := by
  induction evs generalizing st0 with
  | nil => rfl
  | cons ev evs ih =>
      simp only [runBF16, List.foldl_cons] at *
      rw [ih _ (fun e he => h e (List.mem_cons.mpr (Or.inr he)))]
      exact bf16iter_frame injf cvt src st0 _ _ _ _ i
        (h ev (List.mem_cons_self ev evs))

theorem runF16_frame (injf cvtU cvtD : Nat → Nat) (src : Nat → Nat)
    (evs : List KEvent) (st0 : HalfSt) (i : Nat)
    (h : ∀ ev ∈ evs, ¬coversH i ev) :
    (runF16 injf cvtU cvtD src evs st0).dst i = st0.dst i := by
  induction evs generalizing st0 with
  | nil => rfl
  | cons ev evs ih =>
      simp only [runF16, List.foldl_cons] at *
      rw [ih _ (fun e he => h e (List.mem_cons.mpr (Or.inr he)))]
      exact f16iter_frame injf cvtU cvtD src st0 _ _ _ _ i
        (h ev (List.mem_cons_self ev evs))

/-- Half-width analogue of `closedEvents_covers_f32`: with `src`/`dst`
pointers starting at halfword element `s` (byte offset `2·s`), the union of
all store intervals is exactly `[s, s + wa)`. -/

theorem closedEvents_covers_half (g : Geom) (f : Bool) (hg : g.ok)
    (hhalf : g.dt.isHalf = true) (s dfo wa i : Nat) :
    (∃ ev ∈ closedEvents g f (2 * s) (2 * s) dfo wa, coversH i ev)
      ↔ (s ≤ i ∧ i < s + wa) := by
  have hsw : 1 ≤ g.simd_w := Geom.simd_w_pos hg
  obtain ⟨m, hm⟩ : (2 : Nat) ∣ g.vlen := by
    have h16 := Nat.dvd_of_mod_eq_zero hg.1
    exact dvd_trans (by norm_num) h16
  have hmsw : g.simd_w = m := by
    have hhl : g.simd_w = g.hl := by rw [Geom.simd_w_eq, if_pos hhalf]
    rw [hhl]
    show g.vlen / 2 = m
    rw [hm]
    exact Nat.mul_div_cancel_left m (by norm_num)
  have hdiv2 : ∀ b j : Nat, (2 * b + j * g.vlen) / 2 = b + j * m := by
    intro b j
    rw [hm, show 2 * b + j * (2 * m) = 2 * (b + j * m) by ring]
    exact Nat.mul_div_cancel_left _ (by norm_num)
  have hhlm : g.hl = m := by rw [← hmsw, Geom.simd_w_eq, if_pos hhalf]
  have hm1 : 1 ≤ m := by omega
  rw [closedEvents]
  set k := wa / g.simd_w with hk
  set r := wa % g.simd_w with hr
  have hrlt : r < m := by rw [hr, ← hmsw]; exact Nat.mod_lt _ (by omega)
  have hwa' : m * k + r = wa := by rw [hk, hr, ← hmsw]; exact Nat.div_add_mod _ _
  have harith := covers_arith_shift m k r s i hm1 hrlt
  constructor
  · rintro ⟨ev, hmem, hc⟩
    rcases List.mem_append.mp hmem with hb | ht
    · obtain ⟨j, hjmem, rfl⟩ := List.mem_map.mp hb
      rw [List.mem_range] at hjmem
      simp only [coversH, bulkEvent] at hc
      rw [hdiv2, hhlm] at hc
      have h2 := harith.mp (Or.inl ⟨j, hjmem, hc⟩)
      rw [show k * m + r = wa by rw [← hwa']; ring] at h2
      exact h2
    · by_cases hr0 : r = 0
      · rw [if_pos hr0] at ht
        exact absurd ht (List.not_mem_nil ev)
      · rw [if_neg hr0] at ht
        rw [List.mem_singleton] at ht
        subst ht
        simp only [coversH, tailEvent] at hc
        rw [hdiv2, if_pos hhalf, hhlm, Nat.min_eq_left (le_of_lt hrlt)] at hc
        have h2 := harith.mp (Or.inr ⟨hr0, hc⟩)
        rw [show k * m + r = wa by rw [← hwa']; ring] at h2
        exact h2
  · intro hi
    have hmid := harith.mpr
      (by rw [show k * m + r = wa by rw [← hwa']; ring]; exact hi)
    rcases hmid with ⟨j, hj, hcov⟩ | ⟨hr0, hcov⟩
    · refine ⟨bulkEvent g f (2 * s) (2 * s) dfo j,
        List.mem_append.mpr (Or.inl (List.mem_map_of_mem _
          (List.mem_range.mpr hj))), ?_⟩
      simp only [coversH, bulkEvent]
      rw [hdiv2, hhlm]
      exact hcov
    · refine ⟨tailEvent g f (2 * s) (2 * s) dfo k r,
        List.mem_append.mpr (Or.inr ?_), ?_⟩
      · rw [if_neg hr0]
        exact List.mem_singleton.mpr rfl
      · simp only [coversH, tailEvent]
        rw [hdiv2, if_pos hhalf, hhlm, Nat.min_eq_left (le_of_lt hrlt)]
        exact hcov

/-! ### Partitioning properties of `balance211` -/

theorem div_up_ge (a b : Nat) (hb : 0 < b) : a ≤ div_up a b * b := by
  have h := Nat.lt_div_mul_add (a := a + b - 1) hb
  unfold div_up
  set p := (a + b - 1) / b * b
  omega

theorem div_up_le (a b : Nat) : div_up a b * b ≤ a + b - 1 :=
  Nat.div_mul_le_self _ _

theorem div_up_pos (a b : Nat) (hb : 0 < b) (ha : 0 < a) : 1 ≤ div_up a b := by
  unfold div_up
  rw [Nat.le_div_iff_mul_le hb]
  omega

theorem balance211_start_zero (n team : Nat) : (balance211 n team 0).1 = 0 := by
  by_cases hb : team ≤ 1 ∨ n = 0
  · simp only [balance211]
    rw [if_pos hb]
  · simp only [balance211]
    rw [if_neg hb]
    simp

theorem balance211_start_le_end (n team tid : Nat) :
    (balance211 n team tid).1 ≤ (balance211 n team tid).2 := by
  by_cases hb : team ≤ 1 ∨ n = 0
  · simp only [balance211]
    rw [if_pos hb]
    exact Nat.zero_le n
  · simp only [balance211]
    rw [if_neg hb]
    exact Nat.le_add_right _ _

theorem balance211_contig (n team tid : Nat) (h : tid + 1 < team) :
    (balance211 n team tid).2 = (balance211 n team (tid + 1)).1 := by
  by_cases hb : team ≤ 1 ∨ n = 0
  · rcases hb with hb | hb
    · omega
    · subst hb
      simp [balance211]
  · simp only [balance211]
    rw [if_neg hb, if_neg hb]
    dsimp only
    set n1 := div_up n team with hn1
    set t1 := n - (n1 - 1) * team with ht1
    by_cases h1 : tid < t1
    · rw [if_pos (by omega : tid ≤ t1), if_pos h1,
        if_pos (by omega : tid + 1 ≤ t1)]
      exact (Nat.succ_mul tid n1).symm
    · by_cases h2 : tid ≤ t1
      · have htid : tid = t1 := by omega
        rw [if_pos h2, if_neg h1, if_neg (by omega)]
        rw [htid, show t1 + 1 - t1 = 1 by omega, Nat.one_mul]
      · rw [if_neg h2, if_neg h1, if_neg (by omega)]
        rw [show tid + 1 - t1 = (tid - t1) + 1 by omega, Nat.succ_mul]
        set p := (tid - t1) * (n1 - 1)
        set q := tid * n1
        set w := t1 * n1
        omega

theorem balance211_last (n team : Nat) (h : 1 ≤ team) :
    (balance211 n team (team - 1)).2 = n := by
  by_cases hb : team ≤ 1 ∨ n = 0
  · simp only [balance211]
    rw [if_pos hb]
  · simp only [balance211]
    rw [if_neg hb]
    dsimp only
    push_neg at hb
    obtain ⟨h2, hn⟩ := hb
    have hn1pos : 1 ≤ div_up n team := div_up_pos n team (by omega) (by omega)
    have hupper : n ≤ div_up n team * team := div_up_ge n team (by omega)
    have hlower : (div_up n team - 1) * team ≤ n - 1 := by
      have hle := div_up_le n team
      have hsub : (div_up n team - 1) * team = div_up n team * team - 1 * team :=
        Nat.sub_mul _ _ _
      rw [Nat.one_mul] at hsub
      set p := div_up n team * team
      set q := (div_up n team - 1) * team
      omega
    set n1 := div_up n team with hn1
    set t1 := n - (n1 - 1) * team with ht1
    have hA : (n1 - 1) * team + t1 = n := by
      set a := (n1 - 1) * team
      omega
    have hsm : n1 * team = (n1 - 1) * team + team := by
      calc n1 * team = ((n1 - 1) + 1) * team := by rw [Nat.sub_add_cancel hn1pos]
        _ = (n1 - 1) * team + team := Nat.succ_mul _ _
    have ht1le : t1 ≤ team := by
      set a := (n1 - 1) * team
      set c := n1 * team
      omega
    by_cases hc : team - 1 < t1
    · have ht1team : t1 = team := by omega
      rw [if_pos (by omega : team - 1 ≤ t1), if_pos hc]
      have hB : (team - 1) * n1 + n1 = team * n1 := by
        calc (team - 1) * n1 + n1 = ((team - 1) + 1) * n1 := (Nat.succ_mul _ _).symm
          _ = team * n1 := by rw [Nat.sub_add_cancel h]
      have hcomm : team * n1 = n1 * team := Nat.mul_comm _ _
      set a := (n1 - 1) * team
      set b := (team - 1) * n1
      set c := n1 * team
      set d := team * n1
      omega
    · by_cases hc2 : team - 1 ≤ t1
      · have ht1eq : t1 = team - 1 := by omega
        rw [if_pos hc2, if_neg hc]
        rw [← ht1eq]
        have hD : t1 * n1 = t1 * (n1 - 1) + t1 := by
          calc t1 * n1 = t1 * ((n1 - 1) + 1) := by rw [Nat.sub_add_cancel hn1pos]
            _ = t1 * (n1 - 1) + t1 := Nat.mul_succ _ _
        have hE : t1 * (n1 - 1) + (n1 - 1) = team * (n1 - 1) := by
          calc t1 * (n1 - 1) + (n1 - 1) = (t1 + 1) * (n1 - 1) := (Nat.succ_mul _ _).symm
            _ = team * (n1 - 1) := by rw [show t1 + 1 = team by omega]
        have hcomm : team * (n1 - 1) = (n1 - 1) * team := Nat.mul_comm _ _
        set a := (n1 - 1) * team
        set d := t1 * n1
        set e := t1 * (n1 - 1)
        set f := team * (n1 - 1)
        omega
      · rw [if_neg hc2, if_neg hc]
        have hidx : team - 1 - t1 + 1 = team - t1 := by omega
        have hF : (team - 1 - t1) * (n1 - 1) + (n1 - 1) = (team - t1) * (n1 - 1) := by
          calc (team - 1 - t1) * (n1 - 1) + (n1 - 1)
              = ((team - 1 - t1) + 1) * (n1 - 1) := (Nat.succ_mul _ _).symm
            _ = (team - t1) * (n1 - 1) := by rw [hidx]
        have hG : (team - t1) * (n1 - 1) = team * (n1 - 1) - t1 * (n1 - 1) :=
          Nat.sub_mul _ _ _
        have hH : t1 * (n1 - 1) ≤ team * (n1 - 1) :=
          Nat.mul_le_mul_right _ (by omega)
        have hD : t1 * n1 = t1 * (n1 - 1) + t1 := by
          calc t1 * n1 = t1 * ((n1 - 1) + 1) := by rw [Nat.sub_add_cancel hn1pos]
            _ = t1 * (n1 - 1) + t1 := Nat.mul_succ _ _
        have hcomm : team * (n1 - 1) = (n1 - 1) * team := Nat.mul_comm _ _
        set a := (n1 - 1) * team
        set d := t1 * n1
        set e := t1 * (n1 - 1)
        set f := team * (n1 - 1)
        set u := (team - 1 - t1) * (n1 - 1)
        set v := (team - t1) * (n1 - 1)
        omega

/-! ### Chunk-level properties of the drivers' partitioning -/

theorem chunkBounds_start_le_end (nelems grain nthr ithr : Nat) :
    (chunkBounds nelems grain nthr ithr).1
      ≤ (chunkBounds nelems grain nthr ithr).2 := by
  simp only [chunkBounds]
  exact min_le_min (le_refl _)
    (Nat.mul_le_mul_right _ (balance211_start_le_end _ _ _))

theorem chunkBounds_start_zero (nelems grain nthr : Nat) :
    (chunkBounds nelems grain nthr 0).1 = 0 := by
  simp only [chunkBounds]
  rw [balance211_start_zero]
  simp

theorem chunkBounds_le (nelems grain nthr ithr : Nat) :
    (chunkBounds nelems grain nthr ithr).2 ≤ nelems := by
  simp only [chunkBounds]
  exact min_le_left _ _

theorem chunkBounds_contig (nelems grain nthr ithr : Nat)
    (h : ithr + 1 < nthr) :
    (chunkBounds nelems grain nthr ithr).2
      = (chunkBounds nelems grain nthr (ithr + 1)).1 := by
  simp only [chunkBounds]
  rw [balance211_contig _ _ _ h]

theorem chunkBounds_last (nelems grain nthr : Nat) (h : 1 ≤ nthr)
    (hg : 1 ≤ grain) :
    (chunkBounds nelems grain nthr (nthr - 1)).2 = nelems := by
  simp only [chunkBounds]
  rw [balance211_last _ _ h]
  exact Nat.min_eq_left (div_up_ge _ _ (by omega))

theorem chunkBounds_mono (nelems grain nthr i : Nat) :
    ∀ j, i < j → j < nthr →
      (chunkBounds nelems grain nthr i).2 ≤ (chunkBounds nelems grain nthr j).1 := by
  intro j
  induction j with
  | zero => intro h _; omega
  | succ j ih =>
      intro hij hj
      rcases Nat.lt_succ_iff_lt_or_eq.mp hij with h1 | h1
      · calc (chunkBounds nelems grain nthr i).2
            ≤ (chunkBounds nelems grain nthr j).1 := ih h1 (by omega)
          _ ≤ (chunkBounds nelems grain nthr j).2 :=
            chunkBounds_start_le_end _ _ _ _
          _ = (chunkBounds nelems grain nthr (j + 1)).1 :=
            chunkBounds_contig _ _ _ _ hj
      · rw [h1]
        exact le_of_eq (chunkBounds_contig _ _ _ _ hj)

theorem chunkBounds_cover (nelems grain nthr : Nat) (hn : 1 ≤ nthr)
    (hg : 1 ≤ grain) (x : Nat) (hx : x < nelems) :
    ∃ i, i < nthr ∧ (chunkBounds nelems grain nthr i).1 ≤ x
      ∧ x < (chunkBounds nelems grain nthr i).2 := by
  have key : ∀ j, j < nthr → x < (chunkBounds nelems grain nthr j).2 →
      ∃ i, i ≤ j ∧ (chunkBounds nelems grain nthr i).1 ≤ x
        ∧ x < (chunkBounds nelems grain nthr i).2 := by
    intro j
    induction j with
    | zero =>
        intro _ hxe
        exact ⟨0, le_refl 0, by rw [chunkBounds_start_zero]; omega, hxe⟩
    | succ j ih =>
        intro hj hxe
        by_cases hxp : x < (chunkBounds nelems grain nthr j).2
        · obtain ⟨i, hi, h1, h2⟩ := ih (by omega) hxp
          exact ⟨i, by omega, h1, h2⟩
        · refine ⟨j + 1, le_refl _, ?_, hxe⟩
          rw [← chunkBounds_contig _ _ _ _ hj]
          omega
  obtain ⟨i, hi, h1, h2⟩ := key (nthr - 1) (by omega)
    (by rw [chunkBounds_last _ _ _ hn hg]; exact hx)
  exact ⟨i, by omega, h1, h2⟩

theorem runPiecesF32_pointwise {V : Type} (K : F32Cfg V) (g : Geom)
    (hg : g.ok) (hdt : g.dt = DType.f32) (src diff : Nat → V)
    (ps : List (Nat × Nat)) (dst0 : Nat → V) (i : Nat) :
    runPiecesF32 K g src diff ps dst0 i
      = if ∃ p ∈ ps, p.1 ≤ i ∧ i < p.1 + p.2
        then f32out K src diff i else dst0 i := by
  induction ps generalizing dst0 with
  | nil => simp [runPiecesF32]
  | cons p ps ih =>
      simp only [runPiecesF32, List.foldl_cons] at *
      rw [ih]
      rw [kernelOutF32_pointwise K g hg hdt src diff dst0 p.1 p.2 i]
      by_cases hin : ∃ q ∈ ps, q.1 ≤ i ∧ i < q.1 + q.2
      · rw [if_pos hin, if_pos (by
          obtain ⟨q, hq, hc⟩ := hin
          exact ⟨q, List.mem_cons.mpr (Or.inr hq), hc⟩)]
      · rw [if_neg hin]
        by_cases hp : p.1 ≤ i ∧ i < p.1 + p.2
        · rw [if_pos hp, if_pos ⟨p, List.mem_cons_self p ps, hp⟩]
        · rw [if_neg hp, if_neg (by
            rintro ⟨q, hq, hc⟩
            rcases List.mem_cons.mp hq with rfl | hq2
            · exact hp hc
            · exact hin ⟨q, hq2, hc⟩)]

theorem pieces_cover (ls : List Nat) : ∀ (s i : Nat),
    (∃ p ∈ pieces s ls, p.1 ≤ i ∧ i < p.1 + p.2) ↔ (s ≤ i ∧ i < s + ls.sum) := by
  induction ls with
  | nil => intro s i; simp [pieces]
  | cons l ls ih =>
      intro s i
      simp only [pieces, List.sum_cons]
      constructor
      · rintro ⟨p, hp, hc⟩
        rcases List.mem_cons.mp hp with rfl | hp2
        · simp only at hc
          omega
        · have h2 := (ih (s + l) i).mp ⟨p, hp2, hc⟩
          omega
      · intro hi
        by_cases hl : i < s + l
        · refine ⟨(s, l), List.mem_cons_self _ _, ?_, ?_⟩
          · exact hi.1
          · exact hl
        · obtain ⟨p, hp, hc⟩ := (ih (s + l) i).mpr ⟨by omega, by omega⟩
          exact ⟨p, List.mem_cons.mpr (Or.inr hp), hc⟩

theorem runDriverF32_pointwise {V : Type} (K : F32Cfg V) (g : Geom)
    (hg : g.ok) (hdt : g.dt = DType.f32) (nelems grain nthr : Nat)
    (src diff dst0 : Nat → V) (i : Nat) :
    runDriverF32 K g nelems grain nthr src diff dst0 i
      = if ∃ t ∈ List.range nthr, (chunkBounds nelems grain nthr t).1 ≤ i
            ∧ i < (chunkBounds nelems grain nthr t).2
        then f32out K src diff i else dst0 i := by
  rw [runDriverF32]
  generalize List.range nthr = ts
  induction ts generalizing dst0 with
  | nil => simp
  | cons t ts ih =>
      rw [List.foldl_cons, ih]
      by_cases hse : (chunkBounds nelems grain nthr t).1
          = (chunkBounds nelems grain nthr t).2
      · rw [show mkArgsFwd nelems grain nthr t = none by
          simp only [mkArgsFwd]; rw [if_pos hse]]
        refine if_congr ?_ rfl rfl
        constructor
        · rintro ⟨q, hq, hc⟩
          exact ⟨q, List.mem_cons.mpr (Or.inr hq), hc⟩
        · rintro ⟨q, hq, hc⟩
          rcases List.mem_cons.mp hq with rfl | hq2
          · omega
          · exact ⟨q, hq2, hc⟩
      · rw [show mkArgsFwd nelems grain nthr t
            = some ⟨(chunkBounds nelems grain nthr t).1,
                (chunkBounds nelems grain nthr t).1, none,
                (chunkBounds nelems grain nthr t).2
                  - (chunkBounds nelems grain nthr t).1⟩ by
          simp only [mkArgsFwd]; rw [if_neg hse]]
        dsimp only
        rw [kernelOutF32_pointwise K g hg hdt src diff dst0 _ _ i]
        have hle := chunkBounds_start_le_end nelems grain nthr t
        have hsum : (chunkBounds nelems grain nthr t).1
            + ((chunkBounds nelems grain nthr t).2
              - (chunkBounds nelems grain nthr t).1)
            = (chunkBounds nelems grain nthr t).2 := by omega
        rw [hsum]
        by_cases hp : (chunkBounds nelems grain nthr t).1 ≤ i
            ∧ i < (chunkBounds nelems grain nthr t).2
        · rw [if_pos hp, ite_self, if_pos ⟨t, List.mem_cons_self t ts, hp⟩]
        · rw [if_neg hp]
          refine if_congr ?_ rfl rfl
          constructor
          · rintro ⟨q, hq, hc⟩
            exact ⟨q, List.mem_cons.mpr (Or.inr hq), hc⟩
          · rintro ⟨q, hq, hc⟩
            rcases List.mem_cons.mp hq with rfl | hq2
            · exact absurd hc hp
            · exact ⟨q, hq2, hc⟩

/-! ### Per-element characterization of the half-width bodies

An element's even/odd lane position inside a vector depends on the
sub-range start, so partition independence needs that the even and odd
paths compute the same function of the source halfword.  The next lemmas
prove exactly that, per body execution. -/

theorem interleave_low (c d : Nat) :
    (c % 65536 % 65536 + d % 65536 * 65536) % 65536 = c % 65536 := by
  omega

theorem interleave_high (c d : Nat) :
    (c % 65536 % 65536 + d % 65536 * 65536) / 65536 % 65536 = d % 65536 := by
  omega

theorem pack_low (A B : Nat) (hA : A < 65536) : (A + B * 65536) % 65536 = A := by
  omega

theorem pack_high (A B : Nat) (hA : A < 65536) :
    (A + B * 65536) / 65536 % 65536 = B % 65536 := by
  omega

theorem lorZeroRight (x : Nat) : Nat.lor x 0 = x := Nat.or_zero x

theorem lorZeroLeft (x : Nat) : Nat.lor 0 x = x := Nat.zero_or x

theorem ld1hReg_low (src : Nat → Nat) (eb a j : Nat) (heven : 2 * j < a) :
    ld1hReg src eb a j % 65536 = src (eb + 2 * j) % 65536 := by
  simp only [ld1hReg, mkW]
  rw [if_pos heven]
  by_cases hodd : 2 * j + 1 < a
  · rw [if_pos hodd]
    have h1 : src (eb + 2 * j) % 65536 < 65536 := Nat.mod_lt _ (by norm_num)
    set b := src (eb + 2 * j + 1) % 65536
    omega
  · rw [if_neg hodd]
    have h1 : src (eb + 2 * j) % 65536 < 65536 := Nat.mod_lt _ (by norm_num)
    omega

theorem ld1hReg_lsl (src : Nat → Nat) (eb a j : Nat) (heven : 2 * j < a) :
    lsl16 (ld1hReg src eb a j) = src (eb + 2 * j) % 65536 * 65536 := by
  simp only [ld1hReg, mkW, lsl16]
  rw [if_pos heven]
  have h1 : src (eb + 2 * j) % 65536 < 65536 := Nat.mod_lt _ (by norm_num)
  by_cases hodd : 2 * j + 1 < a
  · rw [if_pos hodd]
    have h2 : src (eb + 2 * j + 1) % 65536 < 65536 := Nat.mod_lt _ (by norm_num)
    set x := src (eb + 2 * j) % 65536
    set b := src (eb + 2 * j + 1) % 65536
    omega
  · rw [if_neg hodd]
    set x := src (eb + 2 * j) % 65536
    omega

theorem ld1hReg_and (src : Nat → Nat) (eb a j : Nat) (heven : 2 * j < a)
    (hodd : 2 * j + 1 < a) :
    andHi16 (ld1hReg src eb a j) = src (eb + 2 * j + 1) % 65536 * 65536 := by
  simp only [ld1hReg, mkW, andHi16]
  rw [if_pos heven, if_pos hodd]
  have h1 : src (eb + 2 * j) % 65536 < 65536 := Nat.mod_lt _ (by norm_num)
  have h2 : src (eb + 2 * j + 1) % 65536 < 65536 := Nat.mod_lt _ (by norm_num)
  set x := src (eb + 2 * j) % 65536
  set b := src (eb + 2 * j + 1) % 65536
  omega

theorem ld1hReg_lsr (src : Nat → Nat) (eb a j : Nat) (heven : 2 * j < a)
    (hodd : 2 * j + 1 < a) :
    lsr16 (ld1hReg src eb a j) % 65536 = src (eb + 2 * j + 1) % 65536 := by
  simp only [ld1hReg, mkW, lsr16]
  rw [if_pos heven, if_pos hodd]
  have h1 : src (eb + 2 * j) % 65536 < 65536 := Nat.mod_lt _ (by norm_num)
  have h2 : src (eb + 2 * j + 1) % 65536 < 65536 := Nat.mod_lt _ (by norm_num)
  set x := src (eb + 2 * j) % 65536
  set b := src (eb + 2 * j + 1) % 65536
  omega

/-- Every halfword the store of one BF16 body execution covers receives
`bf16out` of its source element — whether it sits in an even lane (`lsl 16`
path, `bfcvt`) or an odd lane (`0xFFFF0000` path, `bfcvtnt`). -/

theorem bf16iter_at (injf cvt : Nat → Nat) (src : Nat → Nat) (st : HalfSt)
    (ebd aS aH i : Nat) (hcov : ebd ≤ i ∧ i < ebd + aH)
    (haS : aH ≤ 2 * aS) :
    (bf16iter injf cvt src st ebd ebd aS aH).dst i = bf16out injf cvt src i := by
  obtain ⟨h1, h2⟩ := hcov
  rcases Nat.mod_two_eq_zero_or_one (i - ebd) with hpar | hpar
  · -- even lane: i - ebd = 2j
    obtain ⟨j, hj⟩ : ∃ j, i - ebd = 2 * j := ⟨(i - ebd) / 2, by omega⟩
    have hi : i = ebd + 2 * j := by omega
    have heven : 2 * j < aH := by omega
    subst hi
    simp only [bf16iter, st1h, bf16out]
    rw [if_pos ⟨by omega, by omega⟩]
    rw [show ebd + 2 * j - ebd = 2 * j by omega]
    simp only [getHalf]
    rw [if_pos (by omega : 2 * j % 2 = 0)]
    rw [show 2 * j / 2 = j by omega]
    simp only [bfcvtntM, bfcvtM]
    rw [if_pos heven, if_pos heven]
    rw [ld1hReg_lsl src ebd aH j heven]
    exact interleave_low _ _
  · -- odd lane: i - ebd = 2j + 1
    obtain ⟨j, hj⟩ : ∃ j, i - ebd = 2 * j + 1 := ⟨(i - ebd) / 2, by omega⟩
    have hi : i = ebd + 2 * j + 1 := by omega
    have hodd : 2 * j + 1 < aH := by omega
    have heven : 2 * j < aH := by omega
    have hjs : j < aS := by omega
    subst hi
    simp only [bf16iter, st1h, bf16out]
    rw [if_pos ⟨by omega, by omega⟩]
    rw [show ebd + 2 * j + 1 - ebd = 2 * j + 1 by omega]
    simp only [getHalf]
    rw [if_neg (by omega : ¬(2 * j + 1) % 2 = 0)]
    rw [show (2 * j + 1) / 2 = j by omega]
    simp only [bfcvtntM, bfcvtM, movS]
    rw [if_pos heven, if_pos heven, if_pos hjs]
    rw [ld1hReg_and src ebd aH j heven hodd]
    exact interleave_high _ _

/-- Every halfword the store of one F16 body execution covers receives
`f16out` of its source element — even lanes through the direct widening
`fcvt`, odd lanes through `lsr 16` + `fcvt`, merged back by
`fcvt`-narrowing, `lsl 16` and the predicated `orr`. -/

theorem f16iter_at (injf cvtU cvtD : Nat → Nat) (src : Nat → Nat)
    (st : HalfSt) (ebd aS aH i : Nat) (hcov : ebd ≤ i ∧ i < ebd + aH)
    (haS : aH ≤ 2 * aS) :
    (f16iter injf cvtU cvtD src st ebd ebd aS aH).dst i
      = f16out injf cvtU cvtD src i := by
  obtain ⟨h1, h2⟩ := hcov
  rcases Nat.mod_two_eq_zero_or_one (i - ebd) with hpar | hpar
  · -- even lane
    obtain ⟨j, hj⟩ : ∃ j, i - ebd = 2 * j := ⟨(i - ebd) / 2, by omega⟩
    have hi : i = ebd + 2 * j := by omega
    have heven : 2 * j < aH := by omega
    have hjs : j < aS := by omega
    subst hi
    simp only [f16iter, st1h, f16out]
    rw [if_pos ⟨by omega, by omega⟩]
    rw [show ebd + 2 * j - ebd = 2 * j by omega]
    simp only [getHalf]
    rw [if_pos (by omega : 2 * j % 2 = 0)]
    rw [show 2 * j / 2 = j by omega]
    simp only [orrH, mkW, fcvtDnM, fcvtUpM, movS]
    rw [if_pos heven]
    simp only [heven, hjs, if_true]
    rw [ld1hReg_low src ebd aH j heven]
    have ht6 : lsl16 (cvtD (injf (cvtU (lsr16 (ld1hReg src ebd aH j) % 65536)
        % 4294967296)) % 65536) % 65536 = 0 := by
      set y := cvtD (injf (cvtU (lsr16 (ld1hReg src ebd aH j) % 65536)
        % 4294967296))
      simp only [lsl16]
      omega
    rw [ht6, lorZeroRight]
    set c := cvtD (injf (cvtU (src (ebd + 2 * j) % 65536) % 4294967296))
    have hc : c % 65536 % 65536 < 65536 := by omega
    rw [pack_low _ _ hc]
    omega
  · -- odd lane
    obtain ⟨j, hj⟩ : ∃ j, i - ebd = 2 * j + 1 := ⟨(i - ebd) / 2, by omega⟩
    have hi : i = ebd + 2 * j + 1 := by omega
    have hodd : 2 * j + 1 < aH := by omega
    have heven : 2 * j < aH := by omega
    have hjs : j < aS := by omega
    subst hi
    simp only [f16iter, st1h, f16out]
    rw [if_pos ⟨by omega, by omega⟩]
    rw [show ebd + 2 * j + 1 - ebd = 2 * j + 1 by omega]
    simp only [getHalf]
    rw [if_neg (by omega : ¬(2 * j + 1) % 2 = 0)]
    rw [show (2 * j + 1) / 2 = j by omega]
    simp only [orrH, mkW, fcvtDnM, fcvtUpM, movS]
    simp only [heven, hodd, hjs, if_true]
    rw [ld1hReg_lsr src ebd aH j heven hodd]
    have ht6lo : lsl16 (cvtD (injf (cvtU (src (ebd + 2 * j + 1) % 65536)
        % 4294967296)) % 65536) % 65536 = 0 := by
      set y := cvtD (injf (cvtU (src (ebd + 2 * j + 1) % 65536) % 4294967296))
      simp only [lsl16]
      omega
    have ht6hi : lsl16 (cvtD (injf (cvtU (src (ebd + 2 * j + 1) % 65536)
        % 4294967296)) % 65536) / 65536 % 65536
        = cvtD (injf (cvtU (src (ebd + 2 * j + 1) % 65536) % 4294967296))
          % 65536 := by
      set y := cvtD (injf (cvtU (src (ebd + 2 * j + 1) % 65536) % 4294967296))
      simp only [lsl16]
      omega
    have hv4hi : cvtD (injf (cvtU (ld1hReg src ebd aH j % 65536)
        % 4294967296)) % 65536 / 65536 % 65536 = 0 := by
      set y := cvtD (injf (cvtU (ld1hReg src ebd aH j % 65536) % 4294967296))
      omega
    rw [ht6lo, ht6hi, hv4hi, lorZeroRight, lorZeroLeft]
    set c := cvtD (injf (cvtU (ld1hReg src ebd aH j % 65536) % 4294967296))
    set d := cvtD (injf (cvtU (src (ebd + 2 * j + 1) % 65536) % 4294967296))
    have hcl : c % 65536 % 65536 < 65536 := by omega
    rw [pack_high _ _ hcl]
    omega

/-- In every event of a half-width closed sequence the `pg_h` lane count is
at most twice the `pg_s` lane count (bulk: `hl = 2·wl`; tail: `whilelt`
saturates `pg_s` at `wl`). -/

theorem closedEvents_pg (g : Geom) (f : Bool) (hg : g.ok)
    (hhalf : g.dt.isHalf = true) (so dsto dfo wa : Nat) :
    ∀ ev ∈ closedEvents g f so dsto dfo wa, ev.pgH ≤ 2 * ev.pgS := by
  obtain ⟨m, hm⟩ : (16 : Nat) ∣ g.vlen := Nat.dvd_of_mod_eq_zero hg.1
  have hm1 : 1 ≤ m := by
    have := hg.2
    omega
  have hhl : g.hl = 8 * m := by
    show g.vlen / 2 = 8 * m
    rw [hm]
    omega
  have hwl : g.wl = 4 * m := by
    show g.vlen / 4 = 4 * m
    rw [hm]
    omega
  have hsw : g.simd_w = g.hl := by rw [Geom.simd_w_eq, if_pos hhalf]
  intro ev hmem
  rcases List.mem_append.mp hmem with hb | ht
  · obtain ⟨j, hjmem, rfl⟩ := List.mem_map.mp hb
    simp only [bulkEvent]
    omega
  · by_cases hr0 : wa % g.simd_w = 0
    · rw [if_pos hr0] at ht
      exact absurd ht (List.not_mem_nil ev)
    · rw [if_neg hr0] at ht
      rw [List.mem_singleton] at ht
      subst ht
      simp only [tailEvent]
      rw [if_pos hhalf]
      have hrlt : wa % g.simd_w < g.simd_w := Nat.mod_lt _ (by omega)
      omega

theorem runBF16_covered (injf cvt : Nat → Nat) (src : Nat → Nat)
    (evs : List KEvent) (st0 : HalfSt) (i : Nat)
    (hoff : ∀ ev ∈ evs, ev.srcOff = ev.dstOff ∧ ev.pgH ≤ 2 * ev.pgS)
    (h : ∃ ev ∈ evs, coversH i ev) :
    (runBF16 injf cvt src evs st0).dst i = bf16out injf cvt src i := by
  induction evs generalizing st0 with
  | nil => obtain ⟨ev, hmem, -⟩ := h; exact absurd hmem (List.not_mem_nil ev)
  | cons ev evs ih =>
      simp only [runBF16, List.foldl_cons] at *
      by_cases htail : ∃ e ∈ evs, coversH i e
      · exact ih _ (fun e he => hoff e (List.mem_cons.mpr (Or.inr he))) htail
      · push_neg at htail
        have hev : coversH i ev := by
          obtain ⟨e, hmem, hc⟩ := h
          rcases List.mem_cons.mp hmem with rfl | hmem2
          · exact hc
          · exact absurd hc (htail e hmem2)
        have hfr := runBF16_frame injf cvt src evs
          (bf16iter injf cvt src st0 (ev.srcOff / 2) (ev.dstOff / 2)
            ev.pgS ev.pgH) i (fun e he hc => htail e he hc)
        simp only [runBF16] at hfr
        rw [hfr]
        rw [(hoff ev (List.mem_cons_self ev evs)).1]
        exact bf16iter_at injf cvt src st0 (ev.dstOff / 2) ev.pgS ev.pgH i hev
          (hoff ev (List.mem_cons_self ev evs)).2

theorem runF16_covered (injf cvtU cvtD : Nat → Nat) (src : Nat → Nat)
    (evs : List KEvent) (st0 : HalfSt) (i : Nat)
    (hoff : ∀ ev ∈ evs, ev.srcOff = ev.dstOff ∧ ev.pgH ≤ 2 * ev.pgS)
    (h : ∃ ev ∈ evs, coversH i ev) :
    (runF16 injf cvtU cvtD src evs st0).dst i = f16out injf cvtU cvtD src i := by
  induction evs generalizing st0 with
  | nil => obtain ⟨ev, hmem, -⟩ := h; exact absurd hmem (List.not_mem_nil ev)
  | cons ev evs ih =>
      simp only [runF16, List.foldl_cons] at *
      by_cases htail : ∃ e ∈ evs, coversH i e
      · exact ih _ (fun e he => hoff e (List.mem_cons.mpr (Or.inr he))) htail
      · push_neg at htail
        have hev : coversH i ev := by
          obtain ⟨e, hmem, hc⟩ := h
          rcases List.mem_cons.mp hmem with rfl | hmem2
          · exact hc
          · exact absurd hc (htail e hmem2)
        have hfr := runF16_frame injf cvtU cvtD src evs
          (f16iter injf cvtU cvtD src st0 (ev.srcOff / 2) (ev.dstOff / 2)
            ev.pgS ev.pgH) i (fun e he hc => htail e he hc)
        simp only [runF16] at hfr
        rw [hfr]
        rw [(hoff ev (List.mem_cons_self ev evs)).1]
        exact f16iter_at injf cvtU cvtD src st0 (ev.dstOff / 2) ev.pgS ev.pgH
          i hev (hoff ev (List.mem_cons_self ev evs)).2

/-- Pointwise characterization of a BF16 invocation: halfword elements
`[s, s+wa)` hold `bf16out` of their source element — the same per-element
function at every lane position — and all other memory is untouched. -/

theorem kernelOutBF16_pointwise (injf cvt : Nat → Nat) (g : Geom)
    (hg : g.ok) (hdt : g.dt = DType.bf16) (src : Nat → Nat) (st0 : HalfSt)
    (s wa i : Nat) :
    (kernelOutBF16 injf cvt g src s wa st0).dst i
      = if s ≤ i ∧ i < s + wa then bf16out injf cvt src i else st0.dst i := by
  have hhalf : g.dt.isHalf = true := by rw [hdt]; rfl
  rw [kernelOutBF16, kernelEventsD_eq _ _ (Geom.simd_w_pos hg)]
  by_cases hcov : s ≤ i ∧ i < s + wa
  · rw [if_pos hcov]
    refine runBF16_covered injf cvt src _ st0 i ?_
      ((closedEvents_covers_half g true hg hhalf s (2 * s) wa i).mpr hcov)
    intro ev hmem
    exact ⟨(closedEvents_offsets g true (2 * s) (2 * s) wa
        (fun hcontra => absurd hcontra (by simp)) ev hmem).1,
      closedEvents_pg g true hg hhalf (2 * s) (2 * s) (2 * s) wa ev hmem⟩
  · rw [if_neg hcov]
    refine runBF16_frame _ _ _ _ _ i ?_
    intro ev hmem hc
    exact hcov ((closedEvents_covers_half g true hg hhalf s (2 * s) wa i).mp
      ⟨ev, hmem, hc⟩)

/-- Pointwise characterization of an F16 invocation. -/

theorem kernelOutF16_pointwise (injf cvtU cvtD : Nat → Nat) (g : Geom)
    (hg : g.ok) (hdt : g.dt = DType.f16) (src : Nat → Nat) (st0 : HalfSt)
    (s wa i : Nat) :
    (kernelOutF16 injf cvtU cvtD g src s wa st0).dst i
      = if s ≤ i ∧ i < s + wa then f16out injf cvtU cvtD src i
        else st0.dst i := by
  have hhalf : g.dt.isHalf = true := by rw [hdt]; rfl
  rw [kernelOutF16, kernelEventsD_eq _ _ (Geom.simd_w_pos hg)]
  by_cases hcov : s ≤ i ∧ i < s + wa
  · rw [if_pos hcov]
    refine runF16_covered injf cvtU cvtD src _ st0 i ?_
      ((closedEvents_covers_half g true hg hhalf s (2 * s) wa i).mpr hcov)
    intro ev hmem
    exact ⟨(closedEvents_offsets g true (2 * s) (2 * s) wa
        (fun hcontra => absurd hcontra (by simp)) ev hmem).1,
      closedEvents_pg g true hg hhalf (2 * s) (2 * s) (2 * s) wa ev hmem⟩
  · rw [if_neg hcov]
    refine runF16_frame _ _ _ _ _ _ i ?_
    intro ev hmem hc
    exact hcov ((closedEvents_covers_half g true hg hhalf s (2 * s) wa i).mp
      ⟨ev, hmem, hc⟩)

/-! ### Generic partition folds

One fold lemma serves all element types: any sequential composition of
invocations whose pointwise effect is "rewrite `[s, s+wa)` with a
partition-independent per-element value" equals the union of the pieces. -/

theorem foldPieces_view {S α : Type} (view : S → Nat → α)
    (call : Nat → Nat → S → S) (out : Nat → α)
    (hcall : ∀ s wa st i, view (call s wa st) i
      = if s ≤ i ∧ i < s + wa then out i else view st i) :
    ∀ (ps : List (Nat × Nat)) (st0 : S) (i : Nat),
      view (ps.foldl (fun st p => call p.1 p.2 st) st0) i
        = if ∃ p ∈ ps, p.1 ≤ i ∧ i < p.1 + p.2 then out i
          else view st0 i := by
  intro ps
  induction ps with
  | nil => intro st0 i; simp
  | cons p ps ih =>
      intro st0 i
      rw [List.foldl_cons, ih]
      rw [hcall p.1 p.2 st0 i]
      by_cases hin : ∃ q ∈ ps, q.1 ≤ i ∧ i < q.1 + q.2
      · rw [if_pos hin, if_pos (by
          obtain ⟨q, hq, hc⟩ := hin
          exact ⟨q, List.mem_cons.mpr (Or.inr hq), hc⟩)]
      · rw [if_neg hin]
        by_cases hp : p.1 ≤ i ∧ i < p.1 + p.2
        · rw [if_pos hp, if_pos ⟨p, List.mem_cons_self p ps, hp⟩]
        · rw [if_neg hp, if_neg (by
            rintro ⟨q, hq, hc⟩
            rcases List.mem_cons.mp hq with rfl | hq2
            · exact hp hc
            · exact hin ⟨q, hq2, hc⟩)]

theorem foldDriver_view {S α : Type} (view : S → Nat → α)
    (call : Nat → Nat → S → S) (out : Nat → α) (nelems grain nthr : Nat)
    (hcall : ∀ s wa st i, view (call s wa st) i
      = if s ≤ i ∧ i < s + wa then out i else view st i) :
    ∀ (ts : List Nat) (st0 : S) (i : Nat),
      view (ts.foldl (fun st t =>
          match mkArgsFwd nelems grain nthr t with
          | none => st
          | some a => call a.srcOff a.work_amount st) st0) i
        = if ∃ t ∈ ts, (chunkBounds nelems grain nthr t).1 ≤ i
              ∧ i < (chunkBounds nelems grain nthr t).2
          then out i else view st0 i := by
  intro ts
  induction ts with
  | nil => intro st0 i; simp
  | cons t ts ih =>
      intro st0 i
      rw [List.foldl_cons, ih]
      by_cases hse : (chunkBounds nelems grain nthr t).1
          = (chunkBounds nelems grain nthr t).2
      · rw [show mkArgsFwd nelems grain nthr t = none by
          simp only [mkArgsFwd]; rw [if_pos hse]]
        refine if_congr ?_ rfl rfl
        constructor
        · rintro ⟨q, hq, hc⟩
          exact ⟨q, List.mem_cons.mpr (Or.inr hq), hc⟩
        · rintro ⟨q, hq, hc⟩
          rcases List.mem_cons.mp hq with rfl | hq2
          · omega
          · exact ⟨q, hq2, hc⟩
      · rw [show mkArgsFwd nelems grain nthr t
            = some ⟨(chunkBounds nelems grain nthr t).1,
                (chunkBounds nelems grain nthr t).1, none,
                (chunkBounds nelems grain nthr t).2
                  - (chunkBounds nelems grain nthr t).1⟩ by
          simp only [mkArgsFwd]; rw [if_neg hse]]
        dsimp only
        rw [hcall _ _ st0 i]
        have hle := chunkBounds_start_le_end nelems grain nthr t
        have hsum : (chunkBounds nelems grain nthr t).1
            + ((chunkBounds nelems grain nthr t).2
              - (chunkBounds nelems grain nthr t).1)
            = (chunkBounds nelems grain nthr t).2 := by omega
        rw [hsum]
        by_cases hp : (chunkBounds nelems grain nthr t).1 ≤ i
            ∧ i < (chunkBounds nelems grain nthr t).2
        · rw [if_pos hp, ite_self, if_pos ⟨t, List.mem_cons_self t ts, hp⟩]
        · rw [if_neg hp]
          refine if_congr ?_ rfl rfl
          constructor
          · rintro ⟨q, hq, hc⟩
            exact ⟨q, List.mem_cons.mpr (Or.inr hq), hc⟩
          · rintro ⟨q, hq, hc⟩
            rcases List.mem_cons.mp hq with rfl | hq2
            · exact absurd hc hp
            · exact ⟨q, hq2, hc⟩

/-! # Claim theorems -/

/-- C1: for every initial `work_amount ≥ 0` the generated loop terminates —
the run reaches the epilogue, `kernelEvents` is `some` — and has exactly
the claimed shape: `wa / simd_w` bulk iterations whose `bulkEvent`s carry
the all-true predicates (`pgS = wl`, `pgH = hl`, i.e. `ptrue` for both),
then, when the remaining `work_amount` is `0`, no further body run (straight
to the epilogue), and when it is strictly between `0` and `simd_w` exactly
one `tailEvent` whose predicates are narrowed by `whilelt` to lanes
`0 .. work_amount-1` (`pg_h` as well exactly for the half-width types) —
never a second tail run. -/

theorem c1_loop_shape (g : Geom) (f : Bool) (hg : g.ok)
    (so dsto dfo wa : Nat) :
    kernelEvents g f so dsto dfo wa = some (closedEvents g f so dsto dfo wa) :=
  kernelEvents_eq g f (Geom.simd_w_pos hg) so dsto dfo wa

theorem c1_loop_shape_witness :
    (⟨16, DType.f32⟩ : Geom).ok
    ∧ kernelEvents ⟨16, DType.f32⟩ true 0 0 0 5
        = some (closedEvents ⟨16, DType.f32⟩ true 0 0 0 5) :=
  ⟨by decide, c1_loop_shape ⟨16, DType.f32⟩ true (by decide) 0 0 0 5⟩

/-- C8: after every loop-body execution the `src` and `dst` pointers — and
`diff_dst` exactly on the backward path — advance by `vlen` bytes, the same
byte distance for every element type since `simd_w · sizeof(ElemT) = vlen`;
`work_amount` decreases by exactly `simd_w`; and the loop repeats iff the
decremented `work_amount` is still `≥ simd_w`. -/

theorem c8_loop_step (g : Geom) (hg : g.ok) (f : Bool) (st : KSt)
    (hpc : st.pc = KPc.loop) :
    (kstep g f st).srcOff = st.srcOff + g.vlen
    ∧ (kstep g f st).dstOff = st.dstOff + g.vlen
    ∧ (kstep g f st).diffOff = (if f then st.diffOff else st.diffOff + g.vlen)
    ∧ (kstep g f st).wa = st.wa - g.simd_w
    ∧ ((kstep g f st).pc = KPc.loop ↔ (g.simd_w : Int) ≤ st.wa - g.simd_w)
    ∧ g.simd_w * g.dt.size = g.vlen := by
  obtain ⟨pc, wa, so, dsto, dfo, ps, ph, rv⟩ := st
  simp only at hpc
  subst hpc
  by_cases hc : (g.simd_w : Int) ≤ wa - g.simd_w
  · simp only [kstep]
    rw [if_pos hc]
    exact ⟨rfl, rfl, rfl, rfl, iff_of_true rfl hc, Geom.simd_w_mul_size hg⟩
  · simp only [kstep]
    rw [if_neg hc]
    exact ⟨rfl, rfl, rfl, rfl, iff_of_false (by simp) hc,
      Geom.simd_w_mul_size hg⟩

theorem c8_loop_step_witness :
    (kstep ⟨16, DType.f32⟩ true ⟨KPc.loop, 9, 0, 0, 0, 4, 8, []⟩).srcOff
      = 0 + 16 :=
  (c8_loop_step ⟨16, DType.f32⟩ (by decide) true
    ⟨KPc.loop, 9, 0, 0, 0, 4, 8, []⟩ rfl).1

/-- C10: the loop body is identical for forward and backward for the
half-width element types — the BF16/F16 branches never load `diff_dst` and
never emit the chain-rule `fmul` (the direction is tested only in the F32
branch) — and the only instantiated variants are forward F32/BF16/F16 and
backward F32. -/

theorem c10_half_body_direction_free :
    bodyInstrs true DType.bf16 = bodyInstrs false DType.bf16
    ∧ bodyInstrs true DType.f16 = bodyInstrs false DType.f16
    ∧ (bodyInstrs false DType.bf16).all
        (fun ins => !(ins == AInstr.ld1w_diff || ins == AInstr.fmul_diff)) = true
    ∧ (bodyInstrs false DType.f16).all
        (fun ins => !(ins == AInstr.ld1w_diff || ins == AInstr.fmul_diff)) = true
    ∧ instantiatedVariants
        = [(Dir.fwd, DType.f32), (Dir.fwd, DType.bf16), (Dir.fwd, DType.f16),
            (Dir.bwd, DType.f32)]
    ∧ (instantiatedVariants.filter (fun v => v.2.isHalf)).all
        (fun v => v.1 == Dir.fwd) = true
    ∧ instantiatedVariants.all
        (fun v => !(v == (Dir.bwd, DType.bf16)) && !(v == (Dir.bwd, DType.f16)))
        = true := by
  decide

/-- C4 as stated is false: the code refuses every layout that is not dense
even allowing padding, zero-preserving algorithm or not, because line 247
requires `src_d.is_dense(true)` unconditionally; a strided (non-dense
beyond padding) layout with a zero-preserving algorithm and every other
§4.1 condition satisfied is rejected. -/

theorem c4_counterexample :
    specFwdConds ⟨true, true, true, true, false, Layout.nonDense, true, true,
        true, true, true⟩
    ∧ (⟨true, true, true, true, false, Layout.nonDense, true, true, true,
        true, true⟩ : FwdPd).layout = Layout.nonDense
    ∧ (⟨true, true, true, true, false, Layout.nonDense, true, true, true,
        true, true⟩ : FwdPd).zero_preserved = true
    ∧ fwd_pd_init ⟨true, true, true, true, false, Layout.nonDense, true, true,
        true, true, true⟩ = Status.unimplemented := by
  decide

/-- C4 amended: for a forward descriptor whose layout is dense up to
padding but not strictly dense (`densePadded`), with a zero-preserving
algorithm, all other §4.1 conditions, and the framework's default-format
assignment succeeding, `init()` returns supported. -/

theorem c4_amended (p : FwdPd) (hl : p.layout = Layout.densePadded)
    (hzp : p.zero_preserved = true) (h1 : p.mayiuse = true)
    (h2 : p.is_fwd = true) (h3 : p.src_type_is_d = true)
    (h4 : p.dst_type_is_d = true) (h5 : p.has_zero_dim = false)
    (h6 : p.alg_supported = true) (h7 : p.attr_default = true)
    (h8 : p.formats_ok = true) (h9 : p.src_eq_dst = true) :
    fwd_pd_init p = Status.success := by
  obtain ⟨m, f, s, d, z, l, a, zp, att, fo, se⟩ := p
  simp only at hl hzp h1 h2 h3 h4 h5 h6 h7 h8 h9
  subst hl hzp h1 h2 h3 h4 h5 h6 h7 h8 h9
  decide

theorem c4_amended_witness :
    fwd_pd_init ⟨true, true, true, true, false, Layout.densePadded, true,
      true, true, true, true⟩ = Status.success :=
  c4_amended _ rfl rfl rfl rfl rfl rfl rfl rfl rfl rfl rfl

/-- C5 as stated is false: the spec-worded §4.1 conditions hold for a
strided layout with a zero-preserving algorithm, yet `init()` returns
unimplemented (the code's dense requirement is stronger than condition 5's
"dense or zero-preserving"). -/

theorem c5_counterexample :
    specFwdConds ⟨true, true, true, true, false, Layout.nonDense, true, true,
        true, true, true⟩
    ∧ (⟨true, true, true, true, false, Layout.nonDense, true, true, true,
        true, true⟩ : FwdPd).formats_ok = true
    ∧ fwd_pd_init ⟨true, true, true, true, false, Layout.nonDense, true, true,
        true, true, true⟩ ≠ Status.success := by
  decide

/-- C5 amended: assuming the framework's `set_default_formats_common()`
succeeds, `init()` returns success iff the §4.1 conditions hold with
condition 5 strengthened to the code's check — the layout dense allowing
padding, and strictly dense or zero-preserving — and returns unimplemented
otherwise; both directions. -/

theorem c5_init_iff (pf : FwdPd) (pb : BwdPd)
    (hf : pf.formats_ok = true) (hb : pb.formats_ok = true) :
    (fwd_pd_init pf = Status.success ↔ amendedFwdConds pf)
    ∧ (bwd_pd_init pb = Status.success ↔ amendedBwdConds pb)
    ∧ (fwd_pd_init pf ≠ Status.success → fwd_pd_init pf = Status.unimplemented)
    ∧ (bwd_pd_init pb ≠ Status.success → bwd_pd_init pb = Status.unimplemented) := by
  refine ⟨?_, ?_, ?_, ?_⟩
  · simp only [fwd_pd_init]
    split
    case isTrue h =>
      refine iff_of_true rfl ?_
      simp only [Bool.and_eq_true, Bool.or_eq_true, Bool.not_eq_true'] at h
      unfold amendedFwdConds
      tauto
    case isFalse h =>
      refine iff_of_false (by decide) ?_
      intro hc
      apply h
      unfold amendedFwdConds at hc
      simp only [Bool.and_eq_true, Bool.or_eq_true, Bool.not_eq_true']
      tauto
  · simp only [bwd_pd_init]
    split
    case isTrue h =>
      refine iff_of_true rfl ?_
      simp only [Bool.and_eq_true, Bool.or_eq_true, Bool.not_eq_true'] at h
      unfold amendedBwdConds
      tauto
    case isFalse h =>
      refine iff_of_false (by decide) ?_
      intro hc
      apply h
      unfold amendedBwdConds at hc
      simp only [Bool.and_eq_true, Bool.or_eq_true, Bool.not_eq_true']
      tauto
  · simp only [fwd_pd_init]
    split
    · intro h
      exact absurd rfl h
    · intro h
      rfl
  · simp only [bwd_pd_init]
    split
    · intro h
      exact absurd rfl h
    · intro h
      rfl

theorem c5_init_iff_witness :
    fwd_pd_init ⟨true, true, true, true, false, Layout.denseStrict, true,
      true, true, true, true⟩ = Status.success :=
  (c5_init_iff
    ⟨true, true, true, true, false, Layout.denseStrict, true, true, true,
      true, true⟩
    ⟨true, false, true, true, true, false, true, Layout.denseStrict, true,
      true, true, true, true⟩ rfl rfl).1.mpr (by decide)

/-- C2: a kernel invocation with `work_amount = wa` writes output elements
only at indices `0 .. wa-1`, for every element type: memory at any index
`≥ wa` is unchanged — the tail store predicate restricts the active lanes
to `0 .. work_amount-1` and the predicated store ignores inactive lanes. -/

theorem c2_no_store_past_end {V : Type} (K : F32Cfg V) (vlen : Nat)
    (hv : (⟨vlen, DType.f32⟩ : Geom).ok)
    (src diff dst0 : Nat → V) (injf cvt injf2 cvtU cvtD : Nat → Nat)
    (hsrc : Nat → Nat) (hst : HalfSt) (wa i : Nat) (hi : wa ≤ i) :
    kernelOutF32 K ⟨vlen, DType.f32⟩ src diff 0 wa dst0 i = dst0 i
    ∧ (kernelOutBF16 injf cvt ⟨vlen, DType.bf16⟩ hsrc 0 wa hst).dst i
        = hst.dst i
    ∧ (kernelOutF16 injf2 cvtU cvtD ⟨vlen, DType.f16⟩ hsrc 0 wa hst).dst i
        = hst.dst i := by
  have hok16 : (⟨vlen, DType.bf16⟩ : Geom).ok := hv
  have hokf16 : (⟨vlen, DType.f16⟩ : Geom).ok := hv
  refine ⟨?_, ?_, ?_⟩
  · rw [kernelOutF32_pointwise K _ hv rfl src diff dst0 0 wa i]
    rw [if_neg (by omega)]
  · rw [kernelOutBF16, kernelEventsD_eq _ _ (Geom.simd_w_pos hok16)]
    refine runBF16_frame _ _ _ _ _ _ ?_
    intro ev hmem hc
    have h2 := (closedEvents_covers_half ⟨vlen, DType.bf16⟩ true hok16 rfl 0
      (2 * 0) wa i).mp ⟨ev, hmem, hc⟩
    omega
  · rw [kernelOutF16, kernelEventsD_eq _ _ (Geom.simd_w_pos hokf16)]
    refine runF16_frame _ _ _ _ _ _ _ ?_
    intro ev hmem hc
    have h2 := (closedEvents_covers_half ⟨vlen, DType.f16⟩ true hokf16 rfl 0
      (2 * 0) wa i).mp ⟨ev, hmem, hc⟩
    omega

theorem c2_no_store_past_end_witness :
    kernelOutF32 ⟨(0 : Int), fun v => v + 1, fun a b => a * b, true⟩
      ⟨16, DType.f32⟩ (fun _ => 3) (fun _ => 2) 0 5 (fun _ => 7) 6 = 7 :=
  (c2_no_store_past_end ⟨(0 : Int), fun v => v + 1, fun a b => a * b, true⟩
    16 (by decide) (fun _ => 3) (fun _ => 2) (fun _ => 7)
    id id id id id (fun _ => 0) ⟨fun _ => 0, fun _ => 0, fun _ => 0⟩
    5 6 (by decide)).1

/-- C6: on the backward F32 path every element `i < work_amount` of the
output equals `d(value[i]) · diff_dst[i]`, where `d` is the lane-wise
action the injector emits and `value` is `src` for `use_dst = false` and
the forward output `dst` for `use_dst = true` (the driver's selection,
line 338): the injector transforms the loaded vector in place, then the
predicated `diff_dst` load and the lane-wise `fmul` apply the upstream
gradient before the store. -/

theorem c6_backward_chain_rule {V : Type} (zero : V) (injd : V → V)
    (mulV : V → V → V) (use_dst : Bool) (srcT dstT diffT dst0 : Nat → V)
    (g : Geom) (hg : g.ok) (hdt : g.dt = DType.f32) (s wa i : Nat)
    (hi : i < wa) :
    kernelOutF32 ⟨zero, injd, mulV, false⟩ g
      (bwdValueTensor use_dst srcT dstT) diffT s wa dst0 (s + i)
      = mulV (injd (bwdValueTensor use_dst srcT dstT (s + i)))
          (diffT (s + i)) := by
  rw [kernelOutF32_pointwise _ g hg hdt _ _ dst0 s wa (s + i)]
  rw [if_pos ⟨by omega, by omega⟩]
  rfl

theorem c6_backward_chain_rule_witness :
    kernelOutF32 ⟨(0 : Int), fun v => v + 1, fun a b => a * b, false⟩
      ⟨16, DType.f32⟩ (bwdValueTensor false (fun _ => 4) (fun _ => 9))
      (fun _ => 2) 0 5 (fun _ => 7) (0 + 3)
      = (4 + 1) * 2 :=
  (c6_backward_chain_rule (0 : Int) (fun v => v + 1) (fun a b => a * b)
    false (fun _ => 4) (fun _ => 9) (fun _ => 2) (fun _ => 7)
    ⟨16, DType.f32⟩ (by decide) rfl 0 5 3 (by decide))

/-- C9: for every element type — the F32 kernel over an abstract lane
type, and the instantiated BF16 and F16 forward kernels at bit level —
running the kernel once per contiguous sub-range, with pointers offset by
the sub-range start and `work_amount` its length, produces exactly the
output of a single call over the whole range (in the half-width kernels
the even/odd lane placement depends on the sub-range start, but both lane
paths compute the same function of the source halfword, so the split does
not matter); and each forward driver's composition over any thread count
and grain equals the single call, so the output is independent of the
number of threads. -/

theorem c9_partition_equivalence {V : Type} (K : F32Cfg V) (vlen : Nat)
    (hv : (⟨vlen, DType.f32⟩ : Geom).ok) (src diff dst0 : Nat → V)
    (injf cvt injf2 cvtU cvtD : Nat → Nat) (hsrc : Nat → Nat)
    (hst : HalfSt) (ls : List Nat) (N : Nat) (hsum : ls.sum = N) (i : Nat)
    (nthr grain : Nat) (hnt : 1 ≤ nthr) (hgr : 1 ≤ grain) :
    (runPiecesF32 K ⟨vlen, DType.f32⟩ src diff (pieces 0 ls) dst0 i
        = kernelOutF32 K ⟨vlen, DType.f32⟩ src diff 0 N dst0 i
      ∧ runDriverF32 K ⟨vlen, DType.f32⟩ N grain nthr src diff dst0 i
        = kernelOutF32 K ⟨vlen, DType.f32⟩ src diff 0 N dst0 i)
    ∧ ((runPiecesBF16 injf cvt ⟨vlen, DType.bf16⟩ hsrc
            (pieces 0 ls) hst).dst i
        = (kernelOutBF16 injf cvt ⟨vlen, DType.bf16⟩ hsrc 0 N hst).dst i
      ∧ (runDriverBF16 injf cvt ⟨vlen, DType.bf16⟩ N grain nthr
            hsrc hst).dst i
        = (kernelOutBF16 injf cvt ⟨vlen, DType.bf16⟩ hsrc 0 N hst).dst i)
    ∧ ((runPiecesF16 injf2 cvtU cvtD ⟨vlen, DType.f16⟩ hsrc
            (pieces 0 ls) hst).dst i
        = (kernelOutF16 injf2 cvtU cvtD ⟨vlen, DType.f16⟩
            hsrc 0 N hst).dst i
      ∧ (runDriverF16 injf2 cvtU cvtD ⟨vlen, DType.f16⟩ N grain nthr
            hsrc hst).dst i
        = (kernelOutF16 injf2 cvtU cvtD ⟨vlen, DType.f16⟩
            hsrc 0 N hst).dst i) := by
  have hokB : (⟨vlen, DType.bf16⟩ : Geom).ok := hv
  have hokF : (⟨vlen, DType.f16⟩ : Geom).ok := hv
  have hcallB : ∀ (s wa : Nat) (st : HalfSt) (j : Nat),
      (kernelOutBF16 injf cvt ⟨vlen, DType.bf16⟩ hsrc s wa st).dst j
        = if s ≤ j ∧ j < s + wa then bf16out injf cvt hsrc j
          else st.dst j :=
    fun s wa st j =>
      kernelOutBF16_pointwise injf cvt _ hokB rfl hsrc st s wa j
  have hcallF : ∀ (s wa : Nat) (st : HalfSt) (j : Nat),
      (kernelOutF16 injf2 cvtU cvtD ⟨vlen, DType.f16⟩ hsrc s wa st).dst j
        = if s ≤ j ∧ j < s + wa then f16out injf2 cvtU cvtD hsrc j
          else st.dst j :=
    fun s wa st j =>
      kernelOutF16_pointwise injf2 cvtU cvtD _ hokF rfl hsrc st s wa j
  have hpcond : (∃ p ∈ pieces 0 ls, p.1 ≤ i ∧ i < p.1 + p.2)
      ↔ (0 ≤ i ∧ i < 0 + N) := by
    rw [pieces_cover ls 0 i, hsum]
  have hdcond : (∃ t ∈ List.range nthr,
        (chunkBounds N grain nthr t).1 ≤ i
          ∧ i < (chunkBounds N grain nthr t).2)
      ↔ (0 ≤ i ∧ i < 0 + N) := by
    constructor
    · rintro ⟨t, htm, h1, h2⟩
      have hle := chunkBounds_le N grain nthr t
      exact ⟨by omega, by omega⟩
    · rintro ⟨-, hiN⟩
      obtain ⟨t, ht, h1, h2⟩ := chunkBounds_cover N grain nthr hnt hgr i
        (by omega)
      exact ⟨t, List.mem_range.mpr ht, h1, h2⟩
  refine ⟨⟨?_, ?_⟩, ⟨?_, ?_⟩, ?_, ?_⟩
  · rw [runPiecesF32_pointwise K _ hv rfl src diff _ dst0 i,
      kernelOutF32_pointwise K _ hv rfl src diff dst0 0 N i]
    exact if_congr hpcond rfl rfl
  · rw [runDriverF32_pointwise K _ hv rfl N grain nthr src diff dst0 i,
      kernelOutF32_pointwise K _ hv rfl src diff dst0 0 N i]
    exact if_congr hdcond rfl rfl
  · rw [hcallB 0 N hst i]
    exact (foldPieces_view HalfSt.dst
      (fun s wa st => kernelOutBF16 injf cvt ⟨vlen, DType.bf16⟩ hsrc s wa st)
      (bf16out injf cvt hsrc) hcallB (pieces 0 ls) hst i).trans
      (if_congr hpcond rfl rfl)
  · rw [hcallB 0 N hst i]
    exact (foldDriver_view HalfSt.dst
      (fun s wa st => kernelOutBF16 injf cvt ⟨vlen, DType.bf16⟩ hsrc s wa st)
      (bf16out injf cvt hsrc) N grain nthr hcallB (List.range nthr) hst
      i).trans (if_congr hdcond rfl rfl)
  · rw [hcallF 0 N hst i]
    exact (foldPieces_view HalfSt.dst
      (fun s wa st =>
        kernelOutF16 injf2 cvtU cvtD ⟨vlen, DType.f16⟩ hsrc s wa st)
      (f16out injf2 cvtU cvtD hsrc) hcallF (pieces 0 ls) hst i).trans
      (if_congr hpcond rfl rfl)
  · rw [hcallF 0 N hst i]
    exact (foldDriver_view HalfSt.dst
      (fun s wa st =>
        kernelOutF16 injf2 cvtU cvtD ⟨vlen, DType.f16⟩ hsrc s wa st)
      (f16out injf2 cvtU cvtD hsrc) N grain nthr hcallF (List.range nthr)
      hst i).trans (if_congr hdcond rfl rfl)

theorem c9_partition_equivalence_witness :
    (runPiecesBF16 id id ⟨16, DType.bf16⟩ (fun n => n + 100)
        (pieces 0 [3, 4, 2]) ⟨fun _ => 0, fun _ => 0, fun _ => 7⟩).dst 5
      = (kernelOutBF16 id id ⟨16, DType.bf16⟩ (fun n => n + 100) 0 9
          ⟨fun _ => 0, fun _ => 0, fun _ => 7⟩).dst 5 :=
  (c9_partition_equivalence ⟨(0 : Int), fun v => v + 1, fun a b => a * b,
    true⟩ 16 (by decide) (fun n => n) (fun _ => 2) (fun _ => 7)
    id id id id id (fun n => n + 100)
    ⟨fun _ => 0, fun _ => 0, fun _ => 7⟩ [3, 4, 2] 9 (by decide) 5
    7 16 (by decide) (by decide)).2.1.1

/-- C3: the drivers partition the flat range with grain
`SIMD_We = 64 / sizeof(ElemT)`: partition 0 starts at 0, consecutive
partitions are contiguous, the last ends at `nelems` (together they cover
exactly `[0, nelems)`), all bounds are clamped to `nelems`, partitions are
pairwise disjoint; an empty partition produces no `Args` record, and every
non-empty partition produces exactly one record with `src`/`dst` (and
`diff_dst` for backward) advanced by `start` elements and
`work_amount = end - start ≥ 1`. -/

theorem c3_driver_partitioning (dt : DType) (nelems nthr grain : Nat)
    (hne : 1 ≤ nelems) (hnt : 1 ≤ nthr) (hgr : grain = 64 / dt.size) :
    (chunkBounds nelems grain nthr 0).1 = 0
    ∧ (∀ i, i + 1 < nthr → (chunkBounds nelems grain nthr i).2
        = (chunkBounds nelems grain nthr (i + 1)).1)
    ∧ (chunkBounds nelems grain nthr (nthr - 1)).2 = nelems
    ∧ (∀ i, (chunkBounds nelems grain nthr i).1
        ≤ (chunkBounds nelems grain nthr i).2)
    ∧ (∀ i, (chunkBounds nelems grain nthr i).2 ≤ nelems)
    ∧ (∀ i j, i < j → j < nthr → (chunkBounds nelems grain nthr i).2
        ≤ (chunkBounds nelems grain nthr j).1)
    ∧ (∀ x, x < nelems → ∃ i, i < nthr
        ∧ (chunkBounds nelems grain nthr i).1 ≤ x
        ∧ x < (chunkBounds nelems grain nthr i).2)
    ∧ (∀ i, mkArgsFwd nelems grain nthr i = none
        ↔ (chunkBounds nelems grain nthr i).1
            = (chunkBounds nelems grain nthr i).2)
    ∧ (∀ i a, mkArgsFwd nelems grain nthr i = some a →
        a.srcOff = (chunkBounds nelems grain nthr i).1
        ∧ a.dstOff = (chunkBounds nelems grain nthr i).1
        ∧ a.diffOff = none
        ∧ a.work_amount = (chunkBounds nelems grain nthr i).2
            - (chunkBounds nelems grain nthr i).1
        ∧ 1 ≤ a.work_amount)
    ∧ (∀ i a, mkArgsBwd nelems grain nthr i = some a →
        a.srcOff = (chunkBounds nelems grain nthr i).1
        ∧ a.dstOff = (chunkBounds nelems grain nthr i).1
        ∧ a.diffOff = some (chunkBounds nelems grain nthr i).1
        ∧ a.work_amount = (chunkBounds nelems grain nthr i).2
            - (chunkBounds nelems grain nthr i).1
        ∧ 1 ≤ a.work_amount) := by
  have hg1 : 1 ≤ grain := by
    rw [hgr]
    cases dt <;> decide
  refine ⟨chunkBounds_start_zero _ _ _,
    fun i h => chunkBounds_contig _ _ _ _ h,
    chunkBounds_last _ _ _ hnt hg1,
    fun i => chunkBounds_start_le_end _ _ _ _,
    fun i => chunkBounds_le _ _ _ _,
    fun i j hij hj => chunkBounds_mono _ _ _ _ _ hij hj,
    fun x hx => chunkBounds_cover _ _ _ hnt hg1 x hx,
    ?_, ?_, ?_⟩
  · intro i
    simp only [mkArgsFwd]
    by_cases h : (chunkBounds nelems grain nthr i).1
        = (chunkBounds nelems grain nthr i).2
    · rw [if_pos h]
      simp [h]
    · rw [if_neg h]
      simp [h]
  · intro i a ha
    simp only [mkArgsFwd] at ha
    by_cases h : (chunkBounds nelems grain nthr i).1
        = (chunkBounds nelems grain nthr i).2
    · rw [if_pos h] at ha
      exact absurd ha (by simp)
    · rw [if_neg h] at ha
      have hle := chunkBounds_start_le_end nelems grain nthr i
      have hlt : (chunkBounds nelems grain nthr i).1
          < (chunkBounds nelems grain nthr i).2 := Nat.lt_of_le_of_ne hle h
      have hae := Option.some.inj ha
      subst hae
      refine ⟨rfl, rfl, rfl, rfl, ?_⟩
      simp only [DriverArgs.work_amount]
      omega
  · intro i a ha
    simp only [mkArgsBwd] at ha
    by_cases h : (chunkBounds nelems grain nthr i).1
        = (chunkBounds nelems grain nthr i).2
    · rw [if_pos h] at ha
      exact absurd ha (by simp)
    · rw [if_neg h] at ha
      have hle := chunkBounds_start_le_end nelems grain nthr i
      have hlt : (chunkBounds nelems grain nthr i).1
          < (chunkBounds nelems grain nthr i).2 := Nat.lt_of_le_of_ne hle h
      have hae := Option.some.inj ha
      subst hae
      refine ⟨rfl, rfl, rfl, rfl, ?_⟩
      simp only [DriverArgs.work_amount]
      omega

theorem c3_driver_partitioning_witness :
    (chunkBounds 100 16 7 0).1 = 0 :=
  (c3_driver_partitioning DType.f32 100 7 16 (by decide) (by decide)
    (by decide)).1

/-- C7: the BF16 body splits the loaded half-width vector into two F32-form
vectors exactly as specified — the even BF16 lanes by `lsl 16` (payload in
the high half of the 32-bit lane, zero low half), the odd lanes by the
`0xFFFF0000` mask (same form) — the injector then transforms both
registers (one `compute_vector_range` call, see `bodyInstrs`), and the two
results are down-converted (`bfcvt` into the even halves, `bfcvtnt` into
the odd halves) and interleaved back into one BF16 vector before the
predicated store: stored half lane `2j` holds the down-converted injector
image of the even payload, lane `2j+1` of the odd payload. -/

theorem c7_bf16_lane_split (injf cvt : Nat → Nat) (src : Nat → Nat)
    (st : HalfSt) (ebs ebd aS aH j : Nat) (hodd : 2 * j + 1 < aH)
    (hjs : j < aS) :
    lsl16 (ld1hReg src ebs aH j) = src (ebs + 2 * j) % 65536 * 65536
    ∧ andHi16 (movS aS (ld1hReg src ebs aH) st.tmp0 j)
        = src (ebs + 2 * j + 1) % 65536 * 65536
    ∧ (bf16iter injf cvt src st ebs ebd aS aH).dst (ebd + 2 * j)
        = cvt (injf (src (ebs + 2 * j) % 65536 * 65536)) % 65536
    ∧ (bf16iter injf cvt src st ebs ebd aS aH).dst (ebd + (2 * j + 1))
        = cvt (injf (src (ebs + 2 * j + 1) % 65536 * 65536)) % 65536 := by
  have heven : 2 * j < aH := by omega
  have ha' : src (ebs + 2 * j) % 65536 < 65536 := Nat.mod_lt _ (by norm_num)
  have hb' : src (ebs + 2 * j + 1) % 65536 < 65536 :=
    Nat.mod_lt _ (by norm_num)
  have hlsl : lsl16 (ld1hReg src ebs aH j)
      = src (ebs + 2 * j) % 65536 * 65536 := by
    simp only [ld1hReg, mkW, lsl16]
    rw [if_pos heven, if_pos hodd]
    set a := src (ebs + 2 * j) % 65536
    set b := src (ebs + 2 * j + 1) % 65536
    omega
  have hand : andHi16 (movS aS (ld1hReg src ebs aH) st.tmp0 j)
      = src (ebs + 2 * j + 1) % 65536 * 65536 := by
    simp only [movS]
    rw [if_pos hjs]
    simp only [ld1hReg, mkW, andHi16]
    rw [if_pos heven, if_pos hodd]
    set a := src (ebs + 2 * j) % 65536
    set b := src (ebs + 2 * j + 1) % 65536
    omega
  refine ⟨hlsl, hand, ?_, ?_⟩
  · simp only [bf16iter, st1h]
    rw [if_pos ⟨by omega, by omega⟩]
    rw [show ebd + 2 * j - ebd = 2 * j by omega]
    simp only [getHalf]
    rw [if_pos (by omega : 2 * j % 2 = 0)]
    rw [show 2 * j / 2 = j by omega]
    simp only [bfcvtntM, bfcvtM]
    rw [if_pos heven, if_pos heven]
    rw [hlsl, hand]
    set c := cvt (injf (src (ebs + 2 * j) % 65536 * 65536))
    set d := cvt (injf (src (ebs + 2 * j + 1) % 65536 * 65536))
    omega
  · simp only [bf16iter, st1h]
    rw [if_pos ⟨by omega, by omega⟩]
    rw [show ebd + (2 * j + 1) - ebd = 2 * j + 1 by omega]
    simp only [getHalf]
    rw [if_neg (by omega : ¬(2 * j + 1) % 2 = 0)]
    rw [show (2 * j + 1) / 2 = j by omega]
    simp only [bfcvtntM, bfcvtM]
    rw [if_pos heven, if_pos heven]
    rw [hlsl, hand]
    set c := cvt (injf (src (ebs + 2 * j) % 65536 * 65536))
    set d := cvt (injf (src (ebs + 2 * j + 1) % 65536 * 65536))
    omega

theorem c7_bf16_lane_split_witness :
    (bf16iter (fun x => x + 3) (fun x => x / 65536) (fun n => n + 100)
      ⟨fun _ => 0, fun _ => 0, fun _ => 7⟩ 0 0 4 8).dst (0 + 2 * 1)
      = (fun x => x / 65536) ((fun x => x + 3) ((fun n => n + 100) (0 + 2 * 1)
          % 65536 * 65536)) % 65536 :=
  (c7_bf16_lane_split (fun x => x + 3) (fun x => x / 65536)
    (fun n => n + 100) ⟨fun _ => 0, fun _ => 0, fun _ => 7⟩ 0 0 4 8 1
    (by decide) (by decide)).2.2.1

end JitUniEltwise
